import Mathlib

/-!
Verification of the reactive dataflow graph of `src/data_gui/data_node.py`
(classes `Node` and `PipelineGraph`, plus `serialize_pipeline`,
`create_node_from_data` and `deserialize_pipeline`).

The embedding is shallow and purely functional:

* the Python `dict` `PipelineGraph.nodes` is modelled as an insertion-ordered
  association list with the exact mutation semantics of a Python dict
  (assignment replaces in place, otherwise appends; `del` removes the key);
* the reactivex `Subject` owned by each node is modelled by the flags
  `subjStopped` (it has received `on_completed`) and `subjDisposed`
  (it has been disposed), together with the list `emitted` of values pushed
  through it while it was live; `Subject.on_next` on a disposed subject
  raises `DisposedException`, which is modelled by `Except.error`;
* the `input_subscriptions` dict of a node is modelled by the list `subs`
  of upstream ids currently holding a live subscription (the subscription
  handle itself carries no further observable state used by the claims);
* the external event loop and scheduler are out of scope and not modelled;
* Python exceptions that escape a method (`KeyError` in `add_edge`,
  `DisposedException` in `Subject.on_next`) are modelled with `Except`.
-/

namespace H2P

/-- Index of the first occurrence of `a` in `l` (length of `l` if absent);
used to state the ordering constraints of a topological order. -/
def idx (l : List String) (a : String) : Nat :=
  match l with
  | [] => 0
  | b :: bs => if b = a then 0 else idx bs a + 1

/-- A node of the pipeline graph, from `Node.__init__`
(`src/data_gui/data_node.py`).  `params` values are opaque to the graph
logic and modelled as strings.  `className` records the Python class of the
object (`Node`, `CatchmentNode`, or `PlotNode`), used only by serialization
dispatch. -/
structure Node where
  id : String
  node_type : String
  params : List (String × String)
  inputs : List String
  outputs : List String
  subs : List String
  emitted : List String
  subjStopped : Bool
  subjDisposed : Bool
  className : String
deriving DecidableEq

/-- `Node(node_id, node_type, params)`: a freshly constructed base node. -/
def mkNode (node_id node_type : String) (params : List (String × String)) : Node :=
  { id := node_id, node_type := node_type, params := params,
    inputs := [], outputs := [], subs := [], emitted := [],
    subjStopped := false, subjDisposed := false, className := "Node" }

/-- `Subject.on_next` of the reactivex `Subject` owned by the node: raises
`DisposedException` when the subject is disposed, is a no-op once the
subject has completed, and otherwise records the emission. -/
def Node.on_next (self : Node) (data : String) : Except String Node :=
  if self.subjDisposed then Except.error "DisposedException"
  else if self.subjStopped then Except.ok self
  else Except.ok { self with emitted := self.emitted ++ [data] }

/-- `Node.process_input` (lines 146-153): default behaviour is to pass the
incoming value through to the own output subject. -/
def Node.process_input (self : Node) (data : String) (input_node_id : String) :
    Except String Node :=
  self.on_next data

/-- `Node.subscribe_to_input` (lines 155-174): refuses when the node is of
catchment kind or already holds a subscription keyed by the upstream id;
otherwise records the new subscription.  Returns the success flag together
with the updated node. -/
def Node.subscribe_to_input (self : Node) (input_node : Node) : Bool × Node :=
  if self.node_type = "catchment" then (false, self)
  else if input_node.id ∈ self.subs then (false, self)
  else (true, { self with subs := self.subs ++ [input_node.id] })

/-- `Node.unsubscribe_from_input` (lines 176-180): removes the subscription
keyed by `input_node_id` when present, otherwise does nothing. -/
def Node.unsubscribe_from_input (self : Node) (input_node_id : String) : Node :=
  if input_node_id ∈ self.subs then
    { self with subs := self.subs.erase input_node_id }
  else self

/-- `Node.dispose` (lines 186-199): unsubscribes from every current input,
then completes the own subject (the `DisposedException` a second call
provokes is caught by the surrounding `try`) and finally disposes it; all
errors raised while completing or disposing are caught, so the function is
total. -/
def Node.dispose (self : Node) : Node :=
  let afterUnsub := self.subs.foldl (fun n i => n.unsubscribe_from_input i) self
  let afterComplete :=
    if afterUnsub.subjDisposed then afterUnsub
    else { afterUnsub with subjStopped := true }
  { afterComplete with subjDisposed := true }

/-- The pipeline graph (`PipelineGraph.__init__`): the id-to-node dict,
modelled as an insertion-ordered association list. -/
structure PipelineGraph where
  nodes : List (String × Node)
deriving DecidableEq

/-- Python dict assignment `d[k] = v`: replaces the value in place when the
key is present, otherwise appends the binding. -/
def dictInsert (d : List (String × Node)) (k : String) (v : Node) :
    List (String × Node) :=
  if d.any (fun p => p.1 = k) then
    d.map (fun p => if p.1 = k then (k, v) else p)
  else d ++ [(k, v)]

/-- Python dict lookup `d.get(k)`: the binding of `k` (keys are unique in a
Python dict, so the first binding is the binding). -/
def dictFind? : List (String × Node) → String → Option Node
  | [], _ => none
  | p :: ps, k => if p.1 = k then some p.2 else dictFind? ps k

/-- `self.nodes.get(k)`. -/
def PipelineGraph.find? (g : PipelineGraph) (k : String) : Option Node :=
  dictFind? g.nodes k

/-- `k in self.nodes`. -/
def PipelineGraph.hasNode (g : PipelineGraph) (k : String) : Bool :=
  (g.find? k).isSome

/-- In-place mutation of the node object stored under key `k`, as performed
by the Python methods through object references into the dict. -/
def PipelineGraph.updateNode (g : PipelineGraph) (k : String) (f : Node → Node) :
    PipelineGraph :=
  { nodes := g.nodes.map (fun p => if p.1 = k then (p.1, f p.2) else p) }

/-- `PipelineGraph.add_node` (lines 207-208): a bare dict assignment
`self.nodes[node.id] = node`.  There is no duplicate check. -/
def PipelineGraph.add_node (g : PipelineGraph) (node : Node) : PipelineGraph :=
  { nodes := dictInsert g.nodes node.id node }

/-- One iteration group of the edge-severing loops of `remove_node`: for
each id in `ids` that names a present node, apply the in-place update `t`
to that node.  Instantiated once for the upstream loop and once for the
downstream loop. -/
def PipelineGraph.severFold (g : PipelineGraph) (ids : List String) (t : Node → Node) :
    PipelineGraph :=
  ids.foldl (fun acc i => if acc.hasNode i then acc.updateNode i t else acc) g

/-- `PipelineGraph.remove_node` (lines 210-235): no-op when the id is
absent; otherwise disposes the node, erases it from the `outputs` list of
every upstream node and from the `inputs` list of every downstream node
(`list.remove` removes the first occurrence), and deletes the entry. -/
def PipelineGraph.remove_node (g : PipelineGraph) (node_id : String) : PipelineGraph :=
  match g.find? node_id with
  | none => g
  | some node_to_remove =>
    let upstream_ids := node_to_remove.inputs
    let downstream_ids := node_to_remove.outputs
    let g1 := g.updateNode node_id Node.dispose
    let g2 := g1.severFold upstream_ids (fun n =>
      if node_id ∈ n.outputs then { n with outputs := n.outputs.erase node_id } else n)
    let g3 := g2.severFold downstream_ids (fun n =>
      if node_id ∈ n.inputs then { n with inputs := n.inputs.erase node_id } else n)
    { nodes := g3.nodes.filter (fun p => ¬ p.1 = node_id) }

/-- `PipelineGraph.add_edge` (lines 237-250): `KeyError` when either id is
absent; otherwise appends the structural links guarded by membership checks
and then calls `to_node.subscribe_to_input(from_node)`, discarding its
boolean result.  There is no cycle check and no rollback. -/
def PipelineGraph.add_edge (g : PipelineGraph) (from_id to_id : String) :
    Except String PipelineGraph :=
  match g.find? from_id, g.find? to_id with
  | some from_node, some _ =>
    let g1 := g.updateNode from_id (fun fn =>
      if to_id ∈ fn.outputs then fn else { fn with outputs := fn.outputs ++ [to_id] })
    let g2 := g1.updateNode to_id (fun tn =>
      if from_id ∈ tn.inputs then tn else { tn with inputs := tn.inputs ++ [from_id] })
    Except.ok (g2.updateNode to_id (fun tn => (tn.subscribe_to_input from_node).2))
  | _, _ => Except.error ("Node " ++ from_id ++ " or " ++ to_id ++ " does not exist")

/-! ### graphlib.TopologicalSorter

`topological_order` and `would_create_cycle` both delegate to
`graphlib.TopologicalSorter(dependency_map).static_order()`, where the map
sends a node id to the ids it depends on and ids that occur only as
dependencies are implicit zero-dependency nodes.  `static_order` is
modelled by the fuelled Kahn iteration `kahnAux`: it repeatedly emits every
node whose dependencies have all been emitted, succeeds when all nodes are
emitted, and fails (`CycleError`, modelled by `none`) when it gets stuck. -/

/-- A dependency map: id to list of ids it depends on. -/
abbrev DepMap := List (String × List String)

/-- The dependencies the sorter sees for `x` (the binding of `x` in the
map; empty for implicit nodes). -/
def depsOf : DepMap → String → List String
  | [], _ => []
  | p :: ps, x => if p.1 = x then p.2 else depsOf ps x

/-- All nodes known to the sorter: the keys plus every id occurring as a
dependency, without duplicates. -/
def allNodes (m : DepMap) : List String :=
  (m.map (fun p => p.1) ++ m.flatMap (fun p => p.2)).dedup

/-- One fuelled run of the Kahn iteration. -/
def kahnAux (m : DepMap) : Nat → List String → List String → Option (List String)
  | 0, emitted, remaining => if remaining.isEmpty then some emitted else none
  | fuel + 1, emitted, remaining =>
    if remaining.isEmpty then some emitted
    else
      let ready := remaining.filter (fun x => (depsOf m x).all (fun d => emitted.contains d))
      if ready.isEmpty then none
      else kahnAux m fuel (emitted ++ ready) (remaining.filter (fun x => ¬ ready.contains x))

/-- `list(TopologicalSorter(m).static_order())`: `some` ordering when the
map is sortable, `none` for the `CycleError` raise. -/
def staticOrder (m : DepMap) : Option (List String) :=
  kahnAux m (allNodes m).length [] (allNodes m)

/-- The dependency map `{id: set(node.inputs)}` built by
`topological_order` and `would_create_cycle` (lines 268-272, 284-288). -/
def PipelineGraph.depMap (g : PipelineGraph) : DepMap :=
  g.nodes.map (fun p => (p.1, p.2.inputs))

/-- `PipelineGraph.topological_order` (lines 268-274): `none` models the
`CycleError` raised by `static_order` on a cyclic map. -/
def PipelineGraph.topological_order (g : PipelineGraph) : Option (List String) :=
  staticOrder g.depMap

/-- The hypothetical dependency map of `would_create_cycle`: the current
map with `from_id` added to the dependency set of `to_id`
(`temp_dependency_map[to_id].add(from_id)`, a set add, hence the
membership guard). -/
def PipelineGraph.hypotheticalDepMap (g : PipelineGraph) (from_id to_id : String) :
    DepMap :=
  g.nodes.map (fun p =>
    (p.1, if p.1 = to_id then
            (if from_id ∈ p.2.inputs then p.2.inputs else p.2.inputs ++ [from_id])
          else p.2.inputs))

/-- `PipelineGraph.would_create_cycle` (lines 276-298). -/
def PipelineGraph.would_create_cycle (g : PipelineGraph) (from_id to_id : String) :
    Bool :=
  if (g.find? from_id).isNone ∨ (g.find? to_id).isNone then false
  else if from_id = to_id then true
  else (staticOrder (g.hypotheticalDepMap from_id to_id)).isNone

/-! ### Serialization -/

/-- One entry of the persisted `"nodes"` list written by
`serialize_pipeline` (lines 13-53).  The `class` key is `className` here;
the PlotNode-only buffer fields are additive extras ignored by the graph
logic and are not modelled. -/
structure NodeData where
  id : String
  type : String
  params : List (String × String)
  inputs : List String
  outputs : List String
  className : String
deriving DecidableEq

/-- The record `serialize_pipeline` writes for one node: `operator_file`
is filtered out of the params and the class is recorded for variant
dispatch. -/
def serEntry (p : String × Node) : NodeData :=
  { id := p.2.id, type := p.2.node_type,
    params := p.2.params.filter (fun kv => ¬ kv.1 = "operator_file"),
    inputs := p.2.inputs, outputs := p.2.outputs,
    className := p.2.className }

/-- `serialize_pipeline` (lines 13-53), minus the file write: one record
per node in dict order. -/
def serialize_pipeline (pipeline : PipelineGraph) : List NodeData :=
  pipeline.nodes.map serEntry

/-- `create_node_from_data` (lines 55-107) with `plotwidget=None` (the
GUI-less core case): a `"CatchmentNode"` entry is rebuilt through the
`CatchmentNode` constructor, which forces `node_type="catchment"` and the
default empty params (`create_node_from_data` passes it no params); every
other entry (including `"PlotNode"` without a plot widget) falls through to
the base `Node` constructor. -/
def create_node_from_data (entry : NodeData) : Node :=
  if entry.className = "CatchmentNode" then
    { mkNode entry.id "catchment" [] with className := "CatchmentNode" }
  else
    mkNode entry.id entry.type entry.params

/-- The node-recreation pass of `deserialize_pipeline`: an empty graph
populated by `add_node(create_node_from_data(entry))` per entry, in
order. -/
def recreatedGraph (data : List NodeData) : PipelineGraph :=
  data.foldl (fun g entry => g.add_node (create_node_from_data entry))
    { nodes := [] }

/-- The edge pairs `deserialize_pipeline` replays: one `(from_id, to_id)`
pair per `outputs` entry of each record, in record order. -/
def edgePairs (data : List NodeData) : List (String × String) :=
  data.flatMap (fun e => e.outputs.map (fun t => (e.id, t)))

/-- `deserialize_pipeline` (lines 109-123): recreate the nodes first, then
replay the edges via `add_edge(from_id, to_id)` for each `outputs` entry;
the `KeyError` a dangling id would provoke propagates. -/
def deserialize_pipeline (data : List NodeData) : Except String PipelineGraph :=
  data.foldlM (fun g entry =>
    entry.outputs.foldlM (fun g2 to_id => g2.add_edge entry.id to_id) g)
    (recreatedGraph data)

/-! ### Specification-side notions

These follow the words of the spec, to be compared with the embedded
algorithms: a dependency step, cycles, and valid topological orders. -/

/-- `DepStep m a b`: `a` is a dependency of `b` in `m` (the edge `a` to
`b`). -/
def DepStep (m : DepMap) (a b : String) : Prop :=
  a ∈ depsOf m b

/-- The map contains a dependency cycle: some id reaches itself by a
nonempty chain of dependency steps. -/
def HasCycle (m : DepMap) : Prop :=
  ∃ x, Relation.TransGen (DepStep m) x x

/-- `l` is a valid topological order of `m`: it lists every node exactly
once and every node appears after all of its dependencies. -/
def ValidTopo (m : DepMap) (l : List String) : Prop :=
  l.Nodup ∧ (∀ x, x ∈ l ↔ x ∈ allNodes m) ∧
    ∀ x ∈ l, ∀ d ∈ depsOf m x, idx l d < idx l x

/-- The map is topologically sortable. -/
def TopoSortable (m : DepMap) : Prop :=
  ∃ l, ValidTopo m l

/-! ### Graph invariants

Reachable graph states (states produced by the mutation API) satisfy these;
they appear as hypotheses of the universally quantified claims. -/

/-- The key list of the node dict, in insertion order. -/
def PipelineGraph.keys (g : PipelineGraph) : List String :=
  g.nodes.map (fun p => p.1)

/-- The dict never holds two bindings of one key. -/
def NodupKeys (g : PipelineGraph) : Prop :=
  g.keys.Nodup

/-- Every node is registered under its own id. -/
def IdsMatch (g : PipelineGraph) : Prop :=
  ∀ p ∈ g.nodes, p.2.id = p.1

/-- Structural edge symmetry: the edge p-to-q is recorded on both sides or
neither. -/
def EdgeSym (g : PipelineGraph) : Prop :=
  ∀ p ∈ g.nodes, ∀ q ∈ g.nodes, (q.1 ∈ p.2.outputs ↔ p.1 ∈ q.2.inputs)

/-- No `inputs` or `outputs` list repeats an id. -/
def ListsNodup (g : PipelineGraph) : Prop :=
  ∀ p ∈ g.nodes, p.2.inputs.Nodup ∧ p.2.outputs.Nodup

/-- Every id referenced by an `inputs` or `outputs` list names a present
node. -/
def ClosedGraph (g : PipelineGraph) : Prop :=
  ∀ p ∈ g.nodes, (∀ a ∈ p.2.inputs, g.hasNode a = true) ∧
    (∀ b ∈ p.2.outputs, g.hasNode b = true)

instance (g : PipelineGraph) : Decidable (NodupKeys g) :=
  inferInstanceAs (Decidable (g.keys.Nodup))

instance (g : PipelineGraph) : Decidable (IdsMatch g) :=
  inferInstanceAs (Decidable (∀ p ∈ g.nodes, p.2.id = p.1))

instance (g : PipelineGraph) : Decidable (EdgeSym g) :=
  inferInstanceAs (Decidable
    (∀ p ∈ g.nodes, ∀ q ∈ g.nodes, (q.1 ∈ p.2.outputs ↔ p.1 ∈ q.2.inputs)))

instance (g : PipelineGraph) : Decidable (ListsNodup g) :=
  inferInstanceAs (Decidable (∀ p ∈ g.nodes, p.2.inputs.Nodup ∧ p.2.outputs.Nodup))

instance (g : PipelineGraph) : Decidable (ClosedGraph g) :=
  inferInstanceAs (Decidable (∀ p ∈ g.nodes,
    (∀ a ∈ p.2.inputs, g.hasNode a = true) ∧
    (∀ b ∈ p.2.outputs, g.hasNode b = true)))

/-- Proof bookkeeping for the deserialization round trip: the state of a
reconstructed node after the edge pairs `P` have been replayed, relative to
its freshly created form `nd`.  The replay appends, per processed pair, the
target to the source's `outputs`, the source to the target's `inputs`, and
— unless the target is catchment-kind — the source to the target's
subscriptions. -/
def replayNode (P : List (String × String)) (k : String) (nd : Node) : Node :=
  { nd with
      outputs := (P.filter (fun pr => pr.1 = k)).map (fun pr => pr.2),
      inputs := (P.filter (fun pr => pr.2 = k)).map (fun pr => pr.1),
      subs := if nd.node_type = "catchment" then nd.subs
              else (P.filter (fun pr => pr.2 = k)).map (fun pr => pr.1) }

/-! ### Concrete states, built through the mutation API

Used by the counterexamples and by the witnesses of the hypothesis-bearing
claims. -/

/-- An empty graph. -/
def exEmpty : PipelineGraph := { nodes := [] }

/-- An operator node `a`. -/
def exA : Node := mkNode "a" "operator" []

/-- An operator node `b`. -/
def exB : Node := mkNode "b" "operator" []

/-- A catchment-kind node `c` (as the `CatchmentNode` constructor builds
it). -/
def exC : Node := { mkNode "c" "catchment" [] with className := "CatchmentNode" }

/-- The graph `a -> b`, reached by `add_node(a); add_node(b);
add_edge("a","b")`. -/
def exGraphAB : PipelineGraph :=
  (((exEmpty.add_node exA).add_node exB).add_edge "a" "b").toOption.getD exEmpty

/-- The graph holding the operator `a` and the catchment `c`, with no
edge. -/
def exGraphAC : PipelineGraph :=
  (exEmpty.add_node exA).add_node exC

/-- A second node registered under the id `"a"`, with different params. -/
def exA2 : Node := mkNode "a" "operator" [("p", "2")]

/-- An operator node `c` (unlike the catchment `exC`). -/
def exCop : Node := mkNode "c" "operator" []

/-- The graph with operator nodes `a`, `b`, `c` and the edges added in the
order `b -> c` then `a -> c`, so `c.inputs = ["b", "a"]` while the
serialization (dict order `a`, `b`, `c`) replays `a -> c` before
`b -> c`. -/
def exGraphBCAC : PipelineGraph :=
  (((((exEmpty.add_node exA).add_node exB).add_node exCop).add_edge "b" "c").bind
    (fun g => g.add_edge "a" "c")).toOption.getD exEmpty

/-! ## Helper lemmas -/

theorem idx_append_left {l₁ : List String} (l₂ : List String) {a : String}
    (h : a ∈ l₁) : idx (l₁ ++ l₂) a = idx l₁ a := by
  induction l₁ with
  | nil => cases h
  | cons b bs ih =>
    by_cases hb : b = a
    · simp [idx, hb]
    · rcases List.mem_cons.1 h with h | h
      · exact absurd h.symm hb
      · simp [idx, hb, ih h]

theorem idx_append_right {l₁ : List String} (l₂ : List String) {a : String}
    (h : a ∉ l₁) : idx (l₁ ++ l₂) a = l₁.length + idx l₂ a := by
  induction l₁ with
  | nil => simp [idx]
  | cons b bs ih =>
    have hb : ¬ b = a := fun hba => h (hba ▸ List.mem_cons_self b bs)
    have hbs : a ∉ bs := fun hm => h (List.mem_cons_of_mem b hm)
    rw [List.cons_append]
    simp only [idx, if_neg hb, ih hbs, List.length_cons]
    omega

theorem idx_lt_length {l : List String} {a : String} (h : a ∈ l) :
    idx l a < l.length := by
  induction l with
  | nil => cases h
  | cons b bs ih =>
    by_cases hb : b = a
    · simp [idx, hb]
    · rcases List.mem_cons.1 h with h | h
      · exact absurd h.symm hb
      · simpa [idx, hb] using ih h

theorem dictFind?_isSome_iff (d : List (String × Node)) (k : String) :
    (dictFind? d k).isSome ↔ k ∈ d.map (fun p => p.1) := by
  induction d with
  | nil => simp [dictFind?]
  | cons q qs ih =>
    by_cases hq : q.1 = k
    · simp [dictFind?, hq]
    · simp only [dictFind?, if_neg hq, List.map_cons, List.mem_cons, ih]
      constructor
      · exact fun h => Or.inr h
      · rintro (h | h)
        · exact absurd h.symm hq
        · exact h

theorem find?_isSome_iff (g : PipelineGraph) (k : String) :
    (g.find? k).isSome ↔ k ∈ g.keys :=
  dictFind?_isSome_iff g.nodes k

theorem hasNode_iff_mem_keys (g : PipelineGraph) (k : String) :
    g.hasNode k = true ↔ k ∈ g.keys := by
  simpa [PipelineGraph.hasNode] using find?_isSome_iff g k

theorem dictFind?_mem {d : List (String × Node)} {k : String} {n : Node}
    (h : dictFind? d k = some n) : (k, n) ∈ d := by
  induction d with
  | nil => cases h
  | cons q qs ih =>
    by_cases hq : q.1 = k
    · simp only [dictFind?, if_pos hq] at h
      cases h
      exact hq ▸ List.mem_cons_self q qs
    · simp only [dictFind?, if_neg hq] at h
      exact List.mem_cons_of_mem q (ih h)

theorem mem_of_find?_eq_some {g : PipelineGraph} {k : String} {n : Node}
    (h : g.find? k = some n) : (k, n) ∈ g.nodes :=
  dictFind?_mem h

theorem dictFind?_of_mem {d : List (String × Node)}
    (hk : (d.map (fun p => p.1)).Nodup)
    {p : String × Node} (hp : p ∈ d) : dictFind? d p.1 = some p.2 := by
  induction d with
  | nil => cases hp
  | cons q qs ih =>
    simp only [List.map_cons, List.nodup_cons] at hk
    rcases List.mem_cons.1 hp with hp | hp
    · subst hp
      simp [dictFind?]
    · have hqk : ¬ q.1 = p.1 := by
        intro hqe
        exact hk.1 (hqe ▸ List.mem_map_of_mem (fun p => p.1) hp)
      simp only [dictFind?, if_neg hqk]
      exact ih hk.2 hp

theorem find?_eq_some_of_mem {g : PipelineGraph} (hk : NodupKeys g)
    {p : String × Node} (hp : p ∈ g.nodes) : g.find? p.1 = some p.2 :=
  dictFind?_of_mem hk hp

theorem keys_updateNode (g : PipelineGraph) (k : String) (f : Node → Node) :
    (g.updateNode k f).keys = g.keys := by
  simp only [PipelineGraph.updateNode, PipelineGraph.keys, List.map_map]
  apply List.map_congr_left
  intro p _
  by_cases h : p.1 = k <;> simp [h]

theorem dictFind?_mapUpdate (d : List (String × Node)) (u : String)
    (f : Node → Node) (k : String) :
    dictFind? (d.map (fun p => if p.1 = u then (p.1, f p.2) else p)) k =
      if k = u then (dictFind? d k).map f else dictFind? d k := by
  induction d with
  | nil => by_cases h : k = u <;> simp [dictFind?, h]
  | cons q qs ih =>
    by_cases hqu : q.1 = u
    · by_cases hqk : q.1 = k
      · have hku : k = u := hqk ▸ hqu
        simp only [List.map_cons, if_pos hqu]
        simp only [dictFind?, if_pos hqk, if_pos hku]
        simp
      · have hku : ¬ k = u := fun h => hqk (h ▸ hqu ▸ rfl)
        simp only [List.map_cons, if_pos hqu]
        simp only [dictFind?, if_neg hqk, if_neg hku]
        simpa [hku] using ih
    · simp only [List.map_cons, if_neg hqu]
      by_cases hqk : q.1 = k
      · have hku : ¬ k = u := fun h => hqu (hqk ▸ h ▸ rfl)
        simp only [dictFind?, if_pos hqk, if_neg hku]
      · simp only [dictFind?, if_neg hqk]
        exact ih

theorem find?_updateNode (g : PipelineGraph) (u : String) (f : Node → Node)
    (k : String) :
    (g.updateNode u f).find? k =
      if k = u then (g.find? k).map f else g.find? k :=
  dictFind?_mapUpdate g.nodes u f k

theorem dictFind?_mapConst (d : List (String × Node)) (u : String) (v : Node)
    (k : String) :
    dictFind? (d.map (fun p => if p.1 = u then (p.1, v) else p)) k =
      if k = u then (dictFind? d k).map (fun _ => v) else dictFind? d k := by
  simpa using dictFind?_mapUpdate d u (fun _ => v) k

theorem hasNode_updateNode (g : PipelineGraph) (u : String) (f : Node → Node)
    (k : String) : (g.updateNode u f).hasNode k = g.hasNode k := by
  simp only [PipelineGraph.hasNode, find?_updateNode]
  by_cases h : k = u <;> simp [h]

theorem updateNode_eq_self {g : PipelineGraph} (hk : NodupKeys g) {k : String}
    {f : Node → Node} (h : ∀ n, g.find? k = some n → f n = n) :
    g.updateNode k f = g := by
  have h2 : g.nodes.map (fun p => if p.1 = k then (p.1, f p.2) else p) = g.nodes := by
    conv_rhs => rw [← List.map_id g.nodes]
    apply List.map_congr_left
    intro p hp
    by_cases hpk : p.1 = k
    · rw [if_pos hpk]
      have hf := find?_eq_some_of_mem hk hp
      rw [hpk] at hf
      rw [h p.2 hf]
      rfl
    · rw [if_neg hpk]
      rfl
  show PipelineGraph.mk _ = g
  rw [h2]

theorem dictFind?_eq_none_iff (d : List (String × Node)) (k : String) :
    dictFind? d k = none ↔ ¬ k ∈ d.map (fun p => p.1) := by
  rw [← dictFind?_isSome_iff]
  cases dictFind? d k <;> simp

theorem dictFind?_append (d₁ d₂ : List (String × Node)) (k : String)
    (h : ¬ k ∈ d₁.map (fun p => p.1)) :
    dictFind? (d₁ ++ d₂) k = dictFind? d₂ k := by
  induction d₁ with
  | nil => rfl
  | cons q qs ih =>
    have hq : ¬ q.1 = k := by
      intro hqe
      exact h (hqe ▸ List.mem_map_of_mem (fun p => p.1) (List.mem_cons_self q qs))
    have hqs : ¬ k ∈ qs.map (fun p => p.1) := by
      intro hm
      exact h (by simpa using Or.inr hm)
    rw [List.cons_append]
    simp only [dictFind?, if_neg hq]
    exact ih hqs

theorem dictFind?_append_single_ne (d : List (String × Node)) (kv : String × Node)
    {k : String} (h : ¬ k = kv.1) : dictFind? (d ++ [kv]) k = dictFind? d k := by
  induction d with
  | nil =>
    have : ¬ kv.1 = k := fun he => h he.symm
    simp [dictFind?, this]
  | cons q qs ih =>
    by_cases hq : q.1 = k
    · simp [dictFind?, hq]
    · rw [List.cons_append]
      simp only [dictFind?, if_neg hq]
      exact ih

/-- The structural effect of `add_node`: the binding of `node.id` becomes
`node` and every other binding is untouched. -/
theorem find?_add_node (g : PipelineGraph) (node : Node) (k : String) :
    (g.add_node node).find? k =
      if k = node.id then some node else g.find? k := by
  show dictFind? (dictInsert g.nodes node.id node) k = _
  unfold dictInsert
  by_cases hmem : g.nodes.any (fun p => p.1 = node.id)
  · rw [if_pos hmem]
    have hin : node.id ∈ g.nodes.map (fun p => p.1) := by
      rcases List.any_eq_true.1 hmem with ⟨p, hp, hpk⟩
      simp only [decide_eq_true_eq] at hpk
      exact hpk ▸ List.mem_map_of_mem (fun p => p.1) hp
    have hmap : g.nodes.map (fun p => if p.1 = node.id then (node.id, node) else p) =
        g.nodes.map (fun p => if p.1 = node.id then (p.1, node) else p) := by
      apply List.map_congr_left
      intro p _
      by_cases hpk : p.1 = node.id
      · rw [if_pos hpk, if_pos hpk, hpk]
      · rw [if_neg hpk, if_neg hpk]
    rw [hmap, dictFind?_mapConst]
    by_cases hk : k = node.id
    · rcases Option.isSome_iff_exists.1
        ((dictFind?_isSome_iff g.nodes node.id).2 hin) with ⟨n, hn⟩
      rw [hk, hn]
      simp [PipelineGraph.find?]
    · simp [hk, PipelineGraph.find?]
  · rw [if_neg hmem]
    by_cases hk : k = node.id
    · rw [hk]
      have hnot : ¬ node.id ∈ g.nodes.map (fun p => p.1) := by
        intro hm
        rcases List.mem_map.1 hm with ⟨p, hp, hpk⟩
        exact hmem (List.any_eq_true.2 ⟨p, hp, by simp [hpk]⟩)
      rw [dictFind?_append _ _ _ hnot]
      simp [dictFind?]
    · rw [dictFind?_append_single_ne _ _ hk, if_neg hk]
      rfl

/-- The key list after `add_node`: unchanged when the id was present,
extended by the id otherwise. -/
theorem keys_add_node (g : PipelineGraph) (node : Node) :
    (g.add_node node).keys =
      if node.id ∈ g.keys then g.keys else g.keys ++ [node.id] := by
  unfold PipelineGraph.add_node dictInsert PipelineGraph.keys
  by_cases hmem : g.nodes.any (fun p => p.1 = node.id)
  · have hin : node.id ∈ g.nodes.map (fun p => p.1) := by
      rcases List.any_eq_true.1 hmem with ⟨p, hp, hpk⟩
      simp only [decide_eq_true_eq] at hpk
      exact hpk ▸ List.mem_map_of_mem (fun p => p.1) hp
    rw [if_pos hmem, if_pos hin, List.map_map]
    apply List.map_congr_left
    intro p _
    by_cases hpk : p.1 = node.id <;> simp [hpk]
  · have hnot : ¬ node.id ∈ g.nodes.map (fun p => p.1) := by
      intro hm
      rcases List.mem_map.1 hm with ⟨p, hp, hpk⟩
      exact hmem (List.any_eq_true.2 ⟨p, hp, by simp [hpk]⟩)
    rw [if_neg hmem, if_neg hnot]
    simp

/-- Folding `unsubscribe_from_input` over the current subscription list
(the loop of `dispose`) empties it and changes nothing else. -/
theorem foldl_unsubscribe (l : List String) :
    ∀ n : Node, n.subs = l →
      l.foldl (fun n i => n.unsubscribe_from_input i) n = { n with subs := [] } := by
  induction l with
  | nil =>
    intro n h
    simp only [List.foldl_nil]
    cases n
    simp_all
  | cons a as ih =>
    intro n h
    rw [List.foldl_cons]
    have h1 : n.unsubscribe_from_input a = { n with subs := as } := by
      unfold Node.unsubscribe_from_input
      rw [if_pos (h ▸ List.mem_cons_self a as)]
      rw [h, List.erase_cons_head]
    rw [h1]
    exact ih _ rfl

/-- Closed form of `dispose`: the subscriptions are emptied, the subject is
completed unless it was already disposed, and it ends disposed. -/
theorem dispose_eq (n : Node) :
    n.dispose = { n with
                    subs := [],
                    subjStopped := if n.subjDisposed then n.subjStopped else true,
                    subjDisposed := true } := by
  unfold Node.dispose
  rw [foldl_unsubscribe n.subs n rfl]
  by_cases h : n.subjDisposed <;> simp [h]

/-- The subscription step of `add_edge` never touches the `inputs` list of
the subscribing node. -/
theorem subscribe_to_input_inputs (x y : Node) :
    (x.subscribe_to_input y).2.inputs = x.inputs := by
  unfold Node.subscribe_to_input
  by_cases h1 : x.node_type = "catchment"
  · rw [if_pos h1]
  · rw [if_neg h1]
    by_cases h2 : y.id ∈ x.subs
    · rw [if_pos h2]
    · rw [if_neg h2]

/-- The guarded `outputs` append of `add_edge` never touches `inputs`. -/
theorem outputsGuard_inputs (x : Node) (t : String) :
    (if t ∈ x.outputs then x
     else { x with outputs := x.outputs ++ [t] }).inputs = x.inputs := by
  by_cases h : t ∈ x.outputs <;> simp [h]

/-- The `inputs` list after the guarded `inputs` append of `add_edge`. -/
theorem inputsGuard_inputs (x : Node) (f : String) :
    (if f ∈ x.inputs then x
     else { x with inputs := x.inputs ++ [f] }).inputs =
      if f ∈ x.inputs then x.inputs else x.inputs ++ [f] := by
  by_cases h : f ∈ x.inputs <;> simp [h]

/-! ### Correctness of the modelled TopologicalSorter -/

theorem mem_allNodes_iff (m : DepMap) (x : String) :
    x ∈ allNodes m ↔ x ∈ m.map (fun p => p.1) ∨ x ∈ m.flatMap (fun p => p.2) := by
  unfold allNodes
  rw [List.mem_dedup, List.mem_append]

theorem allNodes_nodup (m : DepMap) : (allNodes m).Nodup :=
  List.nodup_dedup _

theorem mem_allNodes_of_dep {m : DepMap} {x d : String} (h : d ∈ depsOf m x) :
    d ∈ allNodes m ∧ x ∈ allNodes m := by
  induction m with
  | nil => cases h
  | cons p ps ih =>
    rw [mem_allNodes_iff, mem_allNodes_iff]
    by_cases hp : p.1 = x
    · rw [depsOf, if_pos hp] at h
      refine ⟨Or.inr ?_, Or.inl ?_⟩
      · exact List.mem_flatMap.2 ⟨p, List.mem_cons_self p ps, h⟩
      · exact hp ▸ List.mem_map_of_mem (fun p => p.1) (List.mem_cons_self p ps)
    · rw [depsOf, if_neg hp] at h
      rcases ih h with ⟨h1, h2⟩
      rw [mem_allNodes_iff] at h1 h2
      constructor
      · rcases h1 with h1 | h1
        · exact Or.inl (by rw [List.map_cons]; exact List.mem_cons_of_mem _ h1)
        · refine Or.inr ?_
          rcases List.mem_flatMap.1 h1 with ⟨q, hq, hxq⟩
          exact List.mem_flatMap.2 ⟨q, List.mem_cons_of_mem p hq, hxq⟩
      · rcases h2 with h2 | h2
        · exact Or.inl (by rw [List.map_cons]; exact List.mem_cons_of_mem _ h2)
        · refine Or.inr ?_
          rcases List.mem_flatMap.1 h2 with ⟨q, hq, hxq⟩
          exact List.mem_flatMap.2 ⟨q, List.mem_cons_of_mem p hq, hxq⟩

/-- A list satisfying the loop invariants of the Kahn iteration with no
remaining work is a valid topological order. -/
theorem validTopo_of_invariants {m : DepMap} {emitted : List String}
    (hperm : emitted.Perm (allNodes m))
    (hemit : ∀ x ∈ emitted, ∀ d ∈ depsOf m x,
      d ∈ emitted ∧ idx emitted d < idx emitted x) :
    ValidTopo m emitted :=
  ⟨hperm.nodup_iff.2 (allNodes_nodup m),
   fun x => hperm.mem_iff,
   fun x hx d hd => (hemit x hx d hd).2⟩

theorem kahnAux_sound (m : DepMap) :
    ∀ (fuel : Nat) (emitted remaining l : List String),
      (emitted ++ remaining).Perm (allNodes m) →
      (∀ x ∈ emitted, ∀ d ∈ depsOf m x,
        d ∈ emitted ∧ idx emitted d < idx emitted x) →
      kahnAux m fuel emitted remaining = some l →
      ValidTopo m l := by
  intro fuel
  induction fuel with
  | zero =>
    intro emitted remaining l hperm hemit hk
    unfold kahnAux at hk
    by_cases hre : remaining.isEmpty
    · rw [if_pos hre] at hk
      cases hk
      rw [List.isEmpty_iff] at hre
      subst hre
      rw [List.append_nil] at hperm
      exact validTopo_of_invariants hperm hemit
    · rw [if_neg hre] at hk
      cases hk
  | succ fuel ih =>
    intro emitted remaining l hperm hemit hk
    unfold kahnAux at hk
    by_cases hre : remaining.isEmpty
    · rw [if_pos hre] at hk
      cases hk
      rw [List.isEmpty_iff] at hre
      subst hre
      rw [List.append_nil] at hperm
      exact validTopo_of_invariants hperm hemit
    · rw [if_neg hre] at hk
      by_cases hready :
          (remaining.filter (fun x => (depsOf m x).all (fun d => emitted.contains d))).isEmpty
      · rw [if_pos hready] at hk
        cases hk
      · rw [if_neg hready] at hk
        have hnodup : (emitted ++ remaining).Nodup :=
          hperm.nodup_iff.2 (allNodes_nodup m)
        have hdisj : ∀ x ∈ remaining, ¬ x ∈ emitted := by
          intro x hx hxe
          rcases List.nodup_append.1 hnodup with ⟨_, _, hd⟩
          exact hd hxe hx
        apply ih _ _ l _ _ hk
        · have hsplit : (remaining.filter
              (fun x => (depsOf m x).all (fun d => emitted.contains d)) ++
              remaining.filter (fun x =>
                ¬ (remaining.filter (fun x =>
                  (depsOf m x).all (fun d => emitted.contains d))).contains x)).Perm
              remaining := by
            have hcongr : remaining.filter (fun x =>
                ¬ (remaining.filter (fun x =>
                  (depsOf m x).all (fun d => emitted.contains d))).contains x) =
                remaining.filter (fun x =>
                  ! (depsOf m x).all (fun d => emitted.contains d)) := by
              apply List.filter_congr
              intro x hx
              by_cases hm : (depsOf m x).all (fun d => emitted.contains d)
              · have hcont : (remaining.filter (fun x =>
                    (depsOf m x).all (fun d => emitted.contains d))).contains x = true :=
                  List.elem_iff.2 (List.mem_filter.2 ⟨hx, hm⟩)
                rw [hcont, hm]
                rfl
              · have hnotmem : ¬ x ∈ remaining.filter (fun x =>
                    (depsOf m x).all (fun d => emitted.contains d)) :=
                  fun hmem => hm (List.mem_filter.1 hmem).2
                have hcont : (remaining.filter (fun x =>
                    (depsOf m x).all (fun d => emitted.contains d))).contains x = false :=
                  Bool.eq_false_iff.2 (fun hc => hnotmem (List.elem_iff.1 hc))
                have hall : (depsOf m x).all (fun d => emitted.contains d) = false :=
                  Bool.eq_false_iff.2 hm
                rw [hcont, hall]
                rfl
            rw [hcongr]
            exact List.filter_append_perm _ remaining
          rw [List.append_assoc]
          exact (List.Perm.append_left emitted hsplit).trans hperm
        · intro x hx d hd
          rcases List.mem_append.1 hx with hxe | hxr
          · rcases hemit x hxe d hd with ⟨hde, hlt⟩
            refine ⟨List.mem_append_left _ hde, ?_⟩
            rw [idx_append_left _ hde, idx_append_left _ hxe]
            exact hlt
          · rcases List.mem_filter.1 hxr with ⟨hxrem, hxall⟩
            have hde : d ∈ emitted := by
              have := List.all_eq_true.1 hxall d hd
              exact List.elem_iff.1 (by simpa using this)
            refine ⟨List.mem_append_left _ hde, ?_⟩
            rw [idx_append_left _ hde]
            have hxne : ¬ x ∈ emitted := hdisj x hxrem
            rw [idx_append_right _ hxne]
            have h1 : idx emitted d < emitted.length := idx_lt_length hde
            omega

/-- In a nonempty finite set of nodes in which every node has a dependency
inside the set, some node lies on a dependency cycle (pigeonhole on the
iterated choice of dependencies). -/
theorem cycle_of_stuck {r : String → String → Prop} (R : List String)
    (hne : ¬ R = []) (h : ∀ x ∈ R, ∃ d, d ∈ R ∧ r d x) :
    ∃ x, Relation.TransGen r x x := by
  classical
  have hchoice : ∀ x : String, ∃ y, x ∈ R → y ∈ R ∧ r y x := by
    intro x
    by_cases hx : x ∈ R
    · obtain ⟨d, hd⟩ := h x hx
      exact ⟨d, fun _ => hd⟩
    · exact ⟨x, fun hx2 => absurd hx2 hx⟩
  choose f hf using hchoice
  obtain ⟨x0, hx0⟩ : ∃ x, x ∈ R := by
    cases R with
    | nil => exact absurd rfl hne
    | cons a as => exact ⟨a, List.mem_cons_self a as⟩
  have hseq : ∀ n, f^[n] x0 ∈ R := by
    intro n
    induction n with
    | zero => exact hx0
    | succ k ihk =>
      rw [Function.iterate_succ_apply' f k x0]
      exact (hf (f^[k] x0) ihk).1
  have hstep : ∀ n, r (f^[n + 1] x0) (f^[n] x0) := by
    intro n
    rw [Function.iterate_succ_apply' f n x0]
    exact (hf (f^[n] x0) (hseq n)).2
  have htg : ∀ i k, Relation.TransGen r (f^[i + k + 1] x0) (f^[i] x0) := by
    intro i k
    induction k with
    | zero => exact Relation.TransGen.single (hstep i)
    | succ k2 ihk =>
      have harith : i + (k2 + 1) + 1 = (i + k2 + 1) + 1 := by omega
      rw [harith]
      exact Relation.TransGen.head (hstep (i + k2 + 1)) ihk
  have hcard : R.toFinset.card < (Finset.range (R.length + 1)).card := by
    rw [Finset.card_range]
    exact Nat.lt_succ_of_le (List.toFinset_card_le R)
  obtain ⟨i, hi, j, hj, hij, hseqeq⟩ :=
    Finset.exists_ne_map_eq_of_card_lt_of_maps_to hcard
      (fun n _ => List.mem_toFinset.2 (hseq n))
  rcases Nat.lt_or_ge i j with hlt | hge
  · refine ⟨f^[i] x0, ?_⟩
    have harith : i + (j - i - 1) + 1 = j := by omega
    have htrans := htg i (j - i - 1)
    rw [harith, ← hseqeq] at htrans
    exact htrans
  · have hlt2 : j < i := Nat.lt_of_le_of_ne hge (fun he => hij he.symm)
    refine ⟨f^[j] x0, ?_⟩
    have harith : j + (i - j - 1) + 1 = i := by omega
    have htrans := htg j (i - j - 1)
    rw [harith, hseqeq] at htrans
    exact htrans

theorem kahnAux_stuck (m : DepMap) :
    ∀ (fuel : Nat) (emitted remaining : List String),
      remaining.length ≤ fuel →
      (emitted ++ remaining).Perm (allNodes m) →
      kahnAux m fuel emitted remaining = none →
      HasCycle m := by
  intro fuel
  induction fuel with
  | zero =>
    intro emitted remaining hlen hperm hk
    unfold kahnAux at hk
    have : remaining = [] := List.length_eq_zero.1 (Nat.le_zero.1 hlen)
    rw [this] at hk
    cases hk
  | succ fuel ih =>
    intro emitted remaining hlen hperm hk
    unfold kahnAux at hk
    by_cases hre : remaining.isEmpty
    · rw [if_pos hre] at hk
      cases hk
    · rw [if_neg hre] at hk
      by_cases hready :
          (remaining.filter (fun x => (depsOf m x).all (fun d => emitted.contains d))).isEmpty
      · have hstuck : ∀ x ∈ remaining, ∃ d, d ∈ remaining ∧ DepStep m d x := by
          intro x hx
          have hnotall : ¬ (depsOf m x).all (fun d => emitted.contains d) = true := by
            intro hall
            have : x ∈ remaining.filter
                (fun x => (depsOf m x).all (fun d => emitted.contains d)) :=
              List.mem_filter.2 ⟨hx, hall⟩
            rw [List.isEmpty_iff] at hready
            rw [hready] at this
            cases this
          rcases not_forall.1 (fun hq => hnotall (List.all_eq_true.2 hq)) with ⟨d, hd⟩
          rcases Classical.not_imp.1 hd with ⟨hdm, hdc⟩
          have hdnot : ¬ d ∈ emitted := fun hdmem =>
            hdc (List.elem_iff.2 hdmem)
          have hdall : d ∈ allNodes m := (mem_allNodes_of_dep hdm).1
          have hdrem : d ∈ remaining := by
            rcases List.mem_append.1 (hperm.mem_iff.2 hdall) with hme | hmr
            · exact absurd hme hdnot
            · exact hmr
          exact ⟨d, hdrem, hdm⟩
        exact cycle_of_stuck remaining (fun hempty => hre (List.isEmpty_iff.2 hempty)) hstuck
      · rw [if_neg hready] at hk
        have hsplit : ((remaining.filter (fun x =>
            (depsOf m x).all (fun d => emitted.contains d))) ++
            remaining.filter (fun x =>
              ¬ (remaining.filter (fun x =>
                (depsOf m x).all (fun d => emitted.contains d))).contains x)).Perm
            remaining := by
          have hcongr : remaining.filter (fun x =>
              ¬ (remaining.filter (fun x =>
                (depsOf m x).all (fun d => emitted.contains d))).contains x) =
              remaining.filter (fun x =>
                ! (depsOf m x).all (fun d => emitted.contains d)) := by
            apply List.filter_congr
            intro x hx
            by_cases hm : (depsOf m x).all (fun d => emitted.contains d)
            · have hcont : (remaining.filter (fun x =>
                  (depsOf m x).all (fun d => emitted.contains d))).contains x = true :=
                List.elem_iff.2 (List.mem_filter.2 ⟨hx, hm⟩)
              rw [hcont, hm]
              rfl
            · have hnotmem : ¬ x ∈ remaining.filter (fun x =>
                  (depsOf m x).all (fun d => emitted.contains d)) :=
                fun hmem => hm (List.mem_filter.1 hmem).2
              have hcont : (remaining.filter (fun x =>
                  (depsOf m x).all (fun d => emitted.contains d))).contains x = false :=
                Bool.eq_false_iff.2 (fun hc => hnotmem (List.elem_iff.1 hc))
              have hall : (depsOf m x).all (fun d => emitted.contains d) = false :=
                Bool.eq_false_iff.2 hm
              rw [hcont, hall]
              rfl
          rw [hcongr]
          exact List.filter_append_perm _ remaining
        have hready_pos : 0 < (remaining.filter (fun x =>
            (depsOf m x).all (fun d => emitted.contains d))).length :=
          List.length_pos.2 (fun he => hready (List.isEmpty_iff.2 he))
        have hlensum := hsplit.length_eq
        rw [List.length_append] at hlensum
        apply ih (emitted ++ remaining.filter (fun x =>
            (depsOf m x).all (fun d => emitted.contains d))) _ (by omega) _ hk
        rw [List.append_assoc]
        exact (List.Perm.append_left emitted hsplit).trans hperm

/-- Soundness: when `static_order` returns an ordering, it is a valid
topological order of the map. -/
theorem staticOrder_sound {m : DepMap} {l : List String}
    (h : staticOrder m = some l) : ValidTopo m l :=
  kahnAux_sound m (allNodes m).length [] (allNodes m) l (by simp) (by simp) h

theorem validTopo_step_lt {m : DepMap} {l : List String} (hv : ValidTopo m l)
    {a b : String} (h : DepStep m a b) : idx l a < idx l b := by
  have hb : b ∈ l := (hv.2.1 b).2 (mem_allNodes_of_dep h).2
  exact hv.2.2 b hb a h

theorem validTopo_transGen_lt {m : DepMap} {l : List String} (hv : ValidTopo m l)
    {a b : String} (h : Relation.TransGen (DepStep m) a b) : idx l a < idx l b := by
  induction h with
  | single hs => exact validTopo_step_lt hv hs
  | tail hab hbc ih => exact lt_trans ih (validTopo_step_lt hv hbc)

/-- A topologically sortable map has no dependency cycle. -/
theorem validTopo_no_cycle {m : DepMap} {l : List String} (hv : ValidTopo m l) :
    ¬ HasCycle m := by
  rintro ⟨x, hx⟩
  exact lt_irrefl _ (validTopo_transGen_lt hv hx)

/-- Completeness direction: when `static_order` raises `CycleError`, the
map really contains a dependency cycle. -/
theorem staticOrder_none_cycle {m : DepMap} (h : staticOrder m = none) :
    HasCycle m :=
  kahnAux_stuck m (allNodes m).length [] (allNodes m) (le_refl _) (by simp) h

theorem no_cycle_of_staticOrder_some {m : DepMap} {l : List String}
    (h : staticOrder m = some l) : ¬ HasCycle m :=
  validTopo_no_cycle (staticOrder_sound h)

theorem cycle_staticOrder_none {m : DepMap} (h : HasCycle m) :
    staticOrder m = none := by
  cases hso : staticOrder m with
  | none => rfl
  | some l => exact absurd h (no_cycle_of_staticOrder_some hso)

/-- Acyclicity and topological sortability coincide. -/
theorem sortable_iff_no_cycle (m : DepMap) : TopoSortable m ↔ ¬ HasCycle m := by
  constructor
  · rintro ⟨l, hv⟩
    exact validTopo_no_cycle hv
  · intro hnc
    cases hso : staticOrder m with
    | none => exact absurd (staticOrder_none_cycle hso) hnc
    | some l => exact ⟨l, staticOrder_sound hso⟩

/-- `static_order` fails exactly on the non-sortable maps. -/
theorem staticOrder_isNone_iff (m : DepMap) :
    (staticOrder m).isNone = true ↔ ¬ TopoSortable m := by
  constructor
  · intro hn hs
    cases hso : staticOrder m with
    | none => exact (sortable_iff_no_cycle m).1 hs (staticOrder_none_cycle hso)
    | some l => rw [hso] at hn; cases hn
  · intro hns
    cases hso : staticOrder m with
    | none => rfl
    | some l => exact absurd ⟨l, staticOrder_sound hso⟩ hns

theorem depsOf_map_inputs {d : List (String × Node)}
    (hk : (d.map (fun p => p.1)).Nodup) {p : String × Node} (hp : p ∈ d) :
    depsOf (d.map (fun p => (p.1, p.2.inputs))) p.1 = p.2.inputs := by
  induction d with
  | nil => cases hp
  | cons q qs ih =>
    simp only [List.map_cons, List.nodup_cons] at hk
    rcases List.mem_cons.1 hp with hp | hp
    · subst hp
      simp [depsOf]
    · have hqk : ¬ q.1 = p.1 := fun hqe =>
        hk.1 (hqe ▸ List.mem_map_of_mem (fun p => p.1) hp)
      simp only [List.map_cons, depsOf, if_neg hqk]
      exact ih hk.2 hp

theorem keys_depMap (g : PipelineGraph) :
    g.depMap.map (fun p => p.1) = g.keys := by
  unfold PipelineGraph.depMap PipelineGraph.keys
  rw [List.map_map]
  rfl

theorem mem_allNodes_depMap {g : PipelineGraph} (hc : ClosedGraph g) (x : String) :
    x ∈ allNodes g.depMap ↔ x ∈ g.keys := by
  rw [mem_allNodes_iff, keys_depMap]
  constructor
  · rintro (h | h)
    · exact h
    · rcases List.mem_flatMap.1 h with ⟨q, hq, hxq⟩
      rcases List.mem_map.1 hq with ⟨p, hp, hpq⟩
      subst hpq
      have hxin := (hc p hp).1 x hxq
      exact (hasNode_iff_mem_keys g x).1 hxin
  · intro h
    exact Or.inl h

/-! ## Claims -/


/-- Claim C9: teardown is idempotent — a second `dispose()` produces the
same observable state as the first, and `unsubscribe_from_input` on an id
with no live subscription is a no-op rather than an error.  The remaining
part of the claim, that errors raised while completing or disposing the
output stream are caught and never re-raised, is reflected in the model by
`Node.dispose` being a total function (the source wraps `on_completed` and
`dispose` in `try`/`except` blocks that swallow the exceptions). -/
theorem C9_teardown_idempotent (n : Node) (missing_id : String)
    (h : ¬ missing_id ∈ n.subs) :
    n.dispose.dispose = n.dispose ∧ n.unsubscribe_from_input missing_id = n := by
  constructor
  · rw [dispose_eq n, dispose_eq]
    simp
  · unfold Node.unsubscribe_from_input
    rw [if_neg h]

/-- Witness for C9 at the concrete operator node `a`. -/
theorem C9_witness :
    ¬ "x" ∈ exA.subs ∧
      (exA.dispose.dispose = exA.dispose ∧ exA.unsubscribe_from_input "x" = exA) :=
  ⟨by decide, C9_teardown_idempotent exA "x" (by decide)⟩

/-- Claim C6 is refuted on this input: the disposed node `a` (its subject
is disposed, so its lifecycle is over) still accepts a brand-new
subscription to the live node `b` — `subscribe_to_input` returns `True`
and records the subscription, because the method checks only the catchment
kind and duplicates, never the disposed state. -/
theorem C6_counterexample :
    exA.dispose.subjDisposed = true ∧
    (exA.dispose.subscribe_to_input exB).1 = true ∧
    (exA.dispose.subscribe_to_input exB).2.subs = ["b"] :=
  ⟨rfl, rfl, rfl⟩

/-- Claim C6 as amended: disposal is terminal for the node's own output
stream — after `dispose()` every `process_input` raises
`DisposedException` instead of emitting — but `subscribe_to_input` is not
guarded by disposal: a disposed non-catchment node still accepts and
records a new subscription. -/
theorem C6_amended_disposal (n other : Node) (data source_id : String)
    (hnc : ¬ n.node_type = "catchment") :
    n.dispose.process_input data source_id = Except.error "DisposedException" ∧
    (n.dispose.subscribe_to_input other).1 = true ∧
    (n.dispose.subscribe_to_input other).2.subs = [other.id] := by
  rw [dispose_eq]
  refine ⟨rfl, ?_, ?_⟩
  all_goals
    unfold Node.subscribe_to_input
    simp [hnc]

/-- Witness for the amended C6 at the concrete operator node `a`. -/
theorem C6_amended_witness :
    ¬ exA.node_type = "catchment" ∧
      (exA.dispose.process_input "v" "s" = Except.error "DisposedException" ∧
        (exA.dispose.subscribe_to_input exB).1 = true ∧
        (exA.dispose.subscribe_to_input exB).2.subs = ["b"]) :=
  ⟨by decide, C6_amended_disposal exA exB "v" "s" (by decide)⟩

/-- Claim C3 is refuted on this input: `add_node` with the already-present
id `"a"` raises no error and silently replaces the registered node (the
method body is the bare dict assignment `self.nodes[node.id] = node`), so
the graph does change rather than being left unchanged with a distinct
error. -/
theorem C3_counterexample :
    ((exEmpty.add_node exA).add_node exA2).find? "a" = some exA2 ∧
    ¬ (exEmpty.add_node exA).add_node exA2 = exEmpty.add_node exA :=
  ⟨rfl, by decide⟩

/-- Claim C3 as amended: `add_node` never fails; it binds the node under
its id, silently overwriting any previous binding of that id and leaving
every other binding untouched, and id-uniqueness holds only because the
store is a dict keyed by id (the key list stays duplicate-free). -/
theorem C3_amended_add_node (g : PipelineGraph) (node : Node)
    (hk : NodupKeys g) :
    (g.add_node node).find? node.id = some node ∧
    (∀ k, ¬ k = node.id → (g.add_node node).find? k = g.find? k) ∧
    NodupKeys (g.add_node node) := by
  refine ⟨?_, ?_, ?_⟩
  · rw [find?_add_node]
    simp
  · intro k hkne
    rw [find?_add_node, if_neg hkne]
  · unfold NodupKeys
    rw [keys_add_node]
    by_cases h : node.id ∈ g.keys
    · rw [if_pos h]
      exact hk
    · rw [if_neg h, List.nodup_append]
      exact ⟨hk, List.nodup_singleton _, fun x hx hxa =>
        (List.mem_singleton.1 hxa ▸ h) hx⟩

/-- Witness for the amended C3: overwriting `"a"` in a concrete graph. -/
theorem C3_amended_witness :
    NodupKeys (exEmpty.add_node exA) ∧
      (((exEmpty.add_node exA).add_node exA2).find? exA2.id = some exA2 ∧
        (∀ k, ¬ k = exA2.id →
          ((exEmpty.add_node exA).add_node exA2).find? k = (exEmpty.add_node exA).find? k) ∧
        NodupKeys ((exEmpty.add_node exA).add_node exA2)) :=
  ⟨by decide, C3_amended_add_node (exEmpty.add_node exA) exA2 (by decide)⟩

/-- Claim C10: replaying `add_edge` on an edge that is already fully
recorded (structurally on both sides, with a live subscription) leaves the
whole graph state unchanged: the two structural appends are skipped by the
membership guards and the duplicate subscription attempt is refused
without mutation. -/
theorem C10_add_edge_duplicate_noop (g : PipelineGraph) (a b : String)
    (na nb : Node) (hk : NodupKeys g) (hid : IdsMatch g) (hne : ¬ a = b)
    (hfa : g.find? a = some na) (hfb : g.find? b = some nb)
    (hout : b ∈ na.outputs) (hin : a ∈ nb.inputs) (hsub : a ∈ nb.subs) :
    g.add_edge a b = Except.ok g := by
  have hna : na.id = a := hid (a, na) (mem_of_find?_eq_some hfa)
  have e1 : g.updateNode a (fun fn =>
      if b ∈ fn.outputs then fn else { fn with outputs := fn.outputs ++ [b] }) = g :=
    updateNode_eq_self hk (fun n hn => by
      rw [hfa] at hn
      cases hn
      rw [if_pos hout])
  have e2 : g.updateNode b (fun tn =>
      if a ∈ tn.inputs then tn else { tn with inputs := tn.inputs ++ [a] }) = g :=
    updateNode_eq_self hk (fun n hn => by
      rw [hfb] at hn
      cases hn
      rw [if_pos hin])
  have e3 : g.updateNode b (fun tn => (tn.subscribe_to_input na).2) = g :=
    updateNode_eq_self hk (fun n hn => by
      rw [hfb] at hn
      cases hn
      unfold Node.subscribe_to_input
      by_cases hc : nb.node_type = "catchment"
      · rw [if_pos hc]
      · rw [if_neg hc, hna, if_pos hsub])
  unfold PipelineGraph.add_edge
  rw [hfa, hfb]
  show Except.ok _ = Except.ok g
  rw [e1, e2, e3]

/-- Witness for C10 on the concrete graph `a -> b`. -/
theorem C10_witness :
    exGraphAB.add_edge "a" "b" = Except.ok exGraphAB :=
  C10_add_edge_duplicate_noop exGraphAB "a" "b"
    { exA with outputs := ["b"] } { exB with inputs := ["a"], subs := ["a"] }
    (by decide) (by decide) (by decide) (by decide) (by decide)
    (by decide) (by decide) (by decide)

/-- Claim C2 is refuted on this input: in the graph holding the operator
`a` and the catchment `c`, `add_edge("a","c")` has its subscription step
refused (`c` forbids inputs), yet the structural appends are NOT rolled
back — the call returns a changed graph in which `c.inputs = ["a"]` while
`c` holds no subscription. -/
theorem C2_counterexample :
    ∃ g2, exGraphAC.add_edge "a" "c" = Except.ok g2 ∧
      ¬ g2 = exGraphAC ∧
      g2.find? "c" = some { exC with inputs := ["a"] } :=
  ⟨(exGraphAC.add_edge "a" "c").toOption.getD exEmpty, rfl, by decide, rfl⟩

/-- Claim C2 as amended: `add_edge` performs no rollback.  When the target
is a catchment-kind node the subscription is refused but the guarded
structural append to the target's `inputs` list persists, so the rejected
edge does change the graph.  (A graph left unchanged on a duplicate edge —
the other failure mode the claim mentions — is due to the membership
guards skipping the appends, not to any rollback; that situation is
exactly claim C10.) -/
theorem C2_amended_no_rollback (g : PipelineGraph) (a c : String) (cn : Node)
    (hne : ¬ a = c) (ha : g.hasNode a = true) (hc : g.find? c = some cn)
    (hcat : cn.node_type = "catchment") :
    ∃ g2, g.add_edge a c = Except.ok g2 ∧
      g2.find? c = some { cn with
                            inputs := if a ∈ cn.inputs then cn.inputs
                                      else cn.inputs ++ [a] } := by
  rcases Option.isSome_iff_exists.1 (by simpa [PipelineGraph.hasNode] using ha)
    with ⟨an, han⟩
  have hedge : g.add_edge a c = Except.ok
      (((g.updateNode a (fun fn =>
          if c ∈ fn.outputs then fn
          else { fn with outputs := fn.outputs ++ [c] })).updateNode c (fun tn =>
          if a ∈ tn.inputs then tn
          else { tn with inputs := tn.inputs ++ [a] })).updateNode c (fun tn =>
          (tn.subscribe_to_input an).2)) := by
    unfold PipelineGraph.add_edge
    rw [han, hc]
  refine ⟨_, hedge, ?_⟩
  have hca : ¬ c = a := fun h => hne h.symm
  rw [find?_updateNode, if_pos rfl, find?_updateNode, if_pos rfl,
    find?_updateNode, if_neg hca, hc]
  simp only [Option.map_some']
  have h2 : (if a ∈ cn.inputs then cn else { cn with inputs := cn.inputs ++ [a] }) =
      { cn with inputs := if a ∈ cn.inputs then cn.inputs else cn.inputs ++ [a] } := by
    by_cases hm : a ∈ cn.inputs <;> simp [hm]
  rw [h2]
  unfold Node.subscribe_to_input
  rw [if_pos hcat]

/-- Witness for the amended C2 on the concrete graph holding `a` and the
catchment `c`. -/
theorem C2_amended_witness :
    ¬ "a" = "c" ∧ exGraphAC.hasNode "a" = true ∧
      exGraphAC.find? "c" = some exC ∧ exC.node_type = "catchment" ∧
      ∃ g2, exGraphAC.add_edge "a" "c" = Except.ok g2 ∧
        g2.find? "c" = some { exC with
                                inputs := if "a" ∈ exC.inputs then exC.inputs
                                          else exC.inputs ++ ["a"] } :=
  ⟨by decide, by decide, by decide, by decide,
    C2_amended_no_rollback exGraphAC "a" "c" exC (by decide) (by decide)
      (by decide) (by decide)⟩

/-- Claim C1 is refuted on this input: in the reachable graph `a -> b`
(built by `add_node`, `add_node`, `add_edge`), the edge `b -> a` would
create a cycle (`would_create_cycle("b","a") = True`), yet `add_edge("b","a")`
accepts the mutation and the resulting graph is cyclic — its
`topological_order` fails.  `add_edge` contains no cycle check at all. -/
theorem C1_counterexample :
    ((exEmpty.add_node exA).add_node exB).add_edge "a" "b" = Except.ok exGraphAB ∧
    exGraphAB.would_create_cycle "b" "a" = true ∧
    ∃ g2, exGraphAB.add_edge "b" "a" = Except.ok g2 ∧
      g2.topological_order = none :=
  ⟨rfl, rfl, ⟨(exGraphAB.add_edge "b" "a").toOption.getD exEmpty, rfl, rfl⟩⟩

/-- Claim C1 as amended: `add_edge` itself performs no cycle check — for
any two present ids it always accepts the mutation.  The dependency map of
the result is exactly the hypothetical map that `would_create_cycle`
tests, so acyclicity of the structural edge set is maintained exactly when
callers pre-check: if `would_create_cycle` reports false, the updated
graph still admits a topological order. -/
theorem C1_amended_no_cycle_guard (g : PipelineGraph) (from_id to_id : String)
    (h1 : g.hasNode from_id = true) (h2 : g.hasNode to_id = true) :
    ∃ g2, g.add_edge from_id to_id = Except.ok g2 ∧
      g2.depMap = g.hypotheticalDepMap from_id to_id ∧
      (g.would_create_cycle from_id to_id = false →
        g2.topological_order.isSome = true) := by
  rcases Option.isSome_iff_exists.1 (by simpa [PipelineGraph.hasNode] using h1)
    with ⟨fn, hf⟩
  rcases Option.isSome_iff_exists.1 (by simpa [PipelineGraph.hasNode] using h2)
    with ⟨tn, ht⟩
  have hedge : g.add_edge from_id to_id = Except.ok
      (((g.updateNode from_id (fun x =>
          if to_id ∈ x.outputs then x
          else { x with outputs := x.outputs ++ [to_id] })).updateNode to_id (fun x =>
          if from_id ∈ x.inputs then x
          else { x with inputs := x.inputs ++ [from_id] })).updateNode to_id (fun x =>
          (x.subscribe_to_input fn).2)) := by
    unfold PipelineGraph.add_edge
    rw [hf, ht]
  have hdep : (((g.updateNode from_id (fun x =>
      if to_id ∈ x.outputs then x
      else { x with outputs := x.outputs ++ [to_id] })).updateNode to_id (fun x =>
      if from_id ∈ x.inputs then x
      else { x with inputs := x.inputs ++ [from_id] })).updateNode to_id (fun x =>
      (x.subscribe_to_input fn).2)).depMap
      = g.hypotheticalDepMap from_id to_id := by
    unfold PipelineGraph.depMap PipelineGraph.updateNode PipelineGraph.hypotheticalDepMap
    simp only [List.map_map]
    apply List.map_congr_left
    intro p _
    rcases p with ⟨k0, n0⟩
    dsimp only [Function.comp_apply]
    by_cases hpa : k0 = from_id
    · subst hpa
      by_cases hpb : k0 = to_id
      · subst hpb
        simp only [eq_self_iff_true, if_true]
        rw [subscribe_to_input_inputs, Prod.mk.injEq]
        refine ⟨rfl, ?_⟩
        rw [inputsGuard_inputs, outputsGuard_inputs]
      · simp [hpb, outputsGuard_inputs]
    · by_cases hpb : k0 = to_id
      · subst hpb
        simp [hpa, subscribe_to_input_inputs, inputsGuard_inputs]
      · simp [hpa, hpb]
  refine ⟨_, hedge, hdep, ?_⟩
  intro hw
  unfold PipelineGraph.would_create_cycle at hw
  rw [hf, ht] at hw
  simp only [Option.isNone_some, Bool.false_eq_true, or_self, if_false] at hw
  by_cases hft : from_id = to_id
  · rw [if_pos hft] at hw
    cases hw
  · rw [if_neg hft] at hw
    unfold PipelineGraph.topological_order
    rw [hdep]
    cases hso : staticOrder (g.hypotheticalDepMap from_id to_id) with
    | none => rw [hso] at hw; cases hw
    | some l => rfl

/-- Witness for the amended C1 on the concrete graph `a -> b`, adding the
already-recorded (hence cycle-free) edge `a -> b` again. -/
theorem C1_amended_witness :
    exGraphAB.hasNode "a" = true ∧ exGraphAB.hasNode "b" = true ∧
      ∃ g2, exGraphAB.add_edge "a" "b" = Except.ok g2 ∧
        g2.depMap = exGraphAB.hypotheticalDepMap "a" "b" ∧
        (exGraphAB.would_create_cycle "a" "b" = false →
          g2.topological_order.isSome = true) :=
  ⟨rfl, rfl, C1_amended_no_cycle_guard exGraphAB "a" "b" rfl rfl⟩

/-- Claim C7: `would_create_cycle` returns true for a self-loop on an
existing node, false when either id is absent, and otherwise returns true
exactly when the hypothetical dependency map — the current one with
`from_id` added to the dependency set of `to_id` — is not topologically
sortable. -/
theorem C7_would_create_cycle (g : PipelineGraph) (from_id to_id : String) :
    (g.hasNode from_id = true → from_id = to_id →
      g.would_create_cycle from_id to_id = true) ∧
    ((¬ g.hasNode from_id = true ∨ ¬ g.hasNode to_id = true) →
      g.would_create_cycle from_id to_id = false) ∧
    (g.hasNode from_id = true → g.hasNode to_id = true → ¬ from_id = to_id →
      (g.would_create_cycle from_id to_id = true ↔
        ¬ TopoSortable (g.hypotheticalDepMap from_id to_id))) := by
  refine ⟨?_, ?_, ?_⟩
  · intro h1 heq
    subst heq
    unfold PipelineGraph.would_create_cycle
    have hno : (g.find? from_id).isNone = false := by
      unfold PipelineGraph.hasNode at h1
      cases hf : g.find? from_id with
      | none => rw [hf] at h1; cases h1
      | some n => rfl
    rw [hno]
    simp
  · intro h2
    unfold PipelineGraph.would_create_cycle
    rcases h2 with h2 | h2
    · have hno : (g.find? from_id).isNone = true := by
        unfold PipelineGraph.hasNode at h2
        cases hf : g.find? from_id with
        | none => rfl
        | some n => rw [hf] at h2; exact absurd rfl h2
      rw [hno]
      simp
    · have hno : (g.find? to_id).isNone = true := by
        unfold PipelineGraph.hasNode at h2
        cases hf : g.find? to_id with
        | none => rfl
        | some n => rw [hf] at h2; exact absurd rfl h2
      rw [hno]
      simp
  · intro h1 h2 hne
    unfold PipelineGraph.would_create_cycle
    have hno1 : (g.find? from_id).isNone = false := by
      unfold PipelineGraph.hasNode at h1
      cases hf : g.find? from_id with
      | none => rw [hf] at h1; cases h1
      | some n => rfl
    have hno2 : (g.find? to_id).isNone = false := by
      unfold PipelineGraph.hasNode at h2
      cases hf : g.find? to_id with
      | none => rw [hf] at h2; cases h2
      | some n => rfl
    have hcond : ¬ ((g.find? from_id).isNone = true ∨ (g.find? to_id).isNone = true) := by
      rw [hno1, hno2]
      simp
    rw [if_neg hcond, if_neg hne]
    exact staticOrder_isNone_iff _

/-- Witness for C7 on the concrete graph `a -> b`: the pre-check for the
edge `b -> a` says true exactly because the hypothetical map is not
sortable. -/
theorem C7_witness :
    exGraphAB.hasNode "b" = true ∧ exGraphAB.hasNode "a" = true ∧ ¬ "b" = "a" ∧
      (exGraphAB.would_create_cycle "b" "a" = true ↔
        ¬ TopoSortable (exGraphAB.hypotheticalDepMap "b" "a")) :=
  ⟨rfl, rfl, by decide,
    (C7_would_create_cycle exGraphAB "b" "a").2.2 rfl rfl (by decide)⟩

/-- Claim C8: on a well-formed acyclic graph `topological_order` returns a
duplicate-free ordering of exactly the node ids in which every id appears
after every id in its `inputs` list; on a cyclic graph it raises the
distinct `CycleError` (modelled by `none`) instead of returning an
ordering. -/
theorem C8_topological_order (g : PipelineGraph)
    (hk : NodupKeys g) (hc : ClosedGraph g) :
    (¬ HasCycle g.depMap →
      ∃ l, g.topological_order = some l ∧ l.Nodup ∧
        (∀ x, x ∈ l ↔ g.hasNode x = true) ∧
        (∀ p ∈ g.nodes, ∀ d ∈ p.2.inputs, idx l d < idx l p.1)) ∧
    (HasCycle g.depMap → g.topological_order = none) := by
  constructor
  · intro hnc
    cases hso : staticOrder g.depMap with
    | none => exact absurd (staticOrder_none_cycle hso) hnc
    | some l =>
      have hv := staticOrder_sound hso
      refine ⟨l, hso, hv.1, ?_, ?_⟩
      · intro x
        rw [hv.2.1 x, mem_allNodes_depMap hc x, hasNode_iff_mem_keys]
      · intro p hp d hd
        have hdm : d ∈ depsOf g.depMap p.1 := by
          unfold PipelineGraph.depMap
          rw [depsOf_map_inputs hk hp]
          exact hd
        have hpl : p.1 ∈ l := by
          rw [hv.2.1, mem_allNodes_depMap hc]
          exact List.mem_map_of_mem (fun p => p.1) hp
        exact hv.2.2 p.1 hpl d hdm
  · intro hcy
    exact cycle_staticOrder_none hcy

theorem keys_severFold (t : Node → Node) (ids : List String) :
    ∀ g : PipelineGraph, (g.severFold ids t).keys = g.keys := by
  induction ids with
  | nil =>
    intro g
    rfl
  | cons u us ih =>
    intro g
    have hstep : g.severFold (u :: us) t =
        (if g.hasNode u then g.updateNode u t else g).severFold us t := by
      unfold PipelineGraph.severFold
      rw [List.foldl_cons]
    rw [hstep, ih]
    by_cases hh : g.hasNode u
    · rw [if_pos hh, keys_updateNode]
    · rw [if_neg hh]

/-- The edge-severing loops of `remove_node`, described binding-wise: a
node is transformed once exactly when its key occurs in the iterated id
list. -/
theorem severFold_find? (t : Node → Node) :
    ∀ ids : List String, ids.Nodup →
      ∀ (g : PipelineGraph) (k : String),
        (g.severFold ids t).find? k =
          (g.find? k).map (fun n => if k ∈ ids then t n else n) := by
  intro ids
  induction ids with
  | nil =>
    intro _ g k
    show g.find? k = _
    cases hfk : g.find? k <;> simp
  | cons u us ih =>
    intro hnd g k
    rcases List.nodup_cons.1 hnd with ⟨hu, hus⟩
    have hstep : g.severFold (u :: us) t =
        (if g.hasNode u then g.updateNode u t else g).severFold us t := by
      unfold PipelineGraph.severFold
      rw [List.foldl_cons]
    rw [hstep, ih hus]
    by_cases hku : k = u
    · subst hku
      by_cases hh : g.hasNode k
      · rw [if_pos hh, find?_updateNode, if_pos rfl]
        cases hfk : g.find? k <;> simp [hu]
      · rw [if_neg hh]
        have hfk : g.find? k = none := by
          unfold PipelineGraph.hasNode at hh
          cases hfk2 : g.find? k with
          | none => rfl
          | some n => rw [hfk2] at hh; exact absurd rfl hh
        rw [hfk]
        simp
    · have hmem : (k ∈ u :: us) ↔ (k ∈ us) := by
        rw [List.mem_cons]
        exact or_iff_right hku
      by_cases hh : g.hasNode u
      · rw [if_pos hh, find?_updateNode, if_neg hku]
        cases hfk : g.find? k <;> simp [hmem]
      · rw [if_neg hh]
        cases hfk : g.find? k <;> simp [hmem]

theorem find?_filter_ne (d : List (String × Node)) (k : String) :
    dictFind? (d.filter (fun p => ¬ p.1 = k)) k = none := by
  induction d with
  | nil => rfl
  | cons q qs ih =>
    by_cases hq : q.1 = k
    · rw [List.filter_cons_of_neg (by simp [hq])]
      exact ih
    · rw [List.filter_cons_of_pos (by simp [hq])]
      simp only [dictFind?, if_neg hq]
      exact ih

/-- The body of `remove_node` on a present id, with the loops expressed
through `severFold` and the dict deletion through `filter`. -/
theorem remove_node_eq (g : PipelineGraph) (node_id : String) {n : Node}
    (hn : g.find? node_id = some n) :
    g.remove_node node_id =
      { nodes := (((g.updateNode node_id Node.dispose).severFold n.inputs (fun q =>
          if node_id ∈ q.outputs then { q with outputs := q.outputs.erase node_id }
          else q)).severFold n.outputs (fun q =>
          if node_id ∈ q.inputs then { q with inputs := q.inputs.erase node_id }
          else q)).nodes.filter (fun p => ¬ p.1 = node_id) } := by
  unfold PipelineGraph.remove_node
  rw [hn]

/-- Claim C4: `remove_node` is a no-op on an absent id; on a present id it
drops the node and severs every edge touching it in both directions, so
that no remaining node's `inputs` or `outputs` list still mentions the
removed id.  (The node is disposed before the severing loops run; the
disposed object is deleted from the dict at the end, so disposal leaves no
trace in the final graph state.)  Stated for well-formed graphs: unique
keys, symmetric edge records, duplicate-free adjacency lists — the
invariants of every state reachable through the mutation API. -/
theorem C4_remove_node (g : PipelineGraph) (node_id : String)
    (hk : NodupKeys g) (hsym : EdgeSym g) (hnd : ListsNodup g) :
    (g.hasNode node_id = false → g.remove_node node_id = g) ∧
    (g.hasNode node_id = true →
      (g.remove_node node_id).hasNode node_id = false ∧
      ∀ p ∈ (g.remove_node node_id).nodes,
        ¬ node_id ∈ p.2.inputs ∧ ¬ node_id ∈ p.2.outputs) := by
  constructor
  · intro habs
    have hfn : g.find? node_id = none := by
      unfold PipelineGraph.hasNode at habs
      cases hf : g.find? node_id with
      | none => rfl
      | some n => rw [hf] at habs; cases habs
    unfold PipelineGraph.remove_node
    rw [hfn]
  · intro hpres
    rcases Option.isSome_iff_exists.1 (by simpa [PipelineGraph.hasNode] using hpres)
      with ⟨n, hn⟩
    have hmem_n : (node_id, n) ∈ g.nodes := mem_of_find?_eq_some hn
    have hnodn := hnd (node_id, n) hmem_n
    rw [remove_node_eq g node_id hn]
    constructor
    · show (dictFind? _ node_id).isSome = false
      rw [find?_filter_ne]
      rfl
    · intro p hp
      have hp2 := List.mem_filter.1 hp
      have hpX : p ∈ (((g.updateNode node_id Node.dispose).severFold n.inputs (fun q =>
          if node_id ∈ q.outputs then { q with outputs := q.outputs.erase node_id }
          else q)).severFold n.outputs (fun q =>
          if node_id ∈ q.inputs then { q with inputs := q.inputs.erase node_id }
          else q)).nodes := hp2.1
      have hpne : ¬ p.1 = node_id := of_decide_eq_true hp2.2
      have hk3 : NodupKeys (((g.updateNode node_id Node.dispose).severFold n.inputs (fun q =>
          if node_id ∈ q.outputs then { q with outputs := q.outputs.erase node_id }
          else q)).severFold n.outputs (fun q =>
          if node_id ∈ q.inputs then { q with inputs := q.inputs.erase node_id }
          else q)) := by
        unfold NodupKeys
        rw [keys_severFold, keys_severFold, keys_updateNode]
        exact hk
      have hfind := find?_eq_some_of_mem hk3 hpX
      rw [severFold_find? _ n.outputs hnodn.2, severFold_find? _ n.inputs hnodn.1,
        find?_updateNode, if_neg hpne] at hfind
      cases hq0 : g.find? p.1 with
      | none => rw [hq0] at hfind; cases hfind
      | some q0 =>
        rw [hq0] at hfind
        simp only [Option.map_some'] at hfind
        injection hfind with hfind
        have hq0mem : (p.1, q0) ∈ g.nodes := mem_of_find?_eq_some hq0
        have hnodq0 := hnd (p.1, q0) hq0mem
        have hinputs_f1 : (if p.1 ∈ n.inputs then
            (if node_id ∈ q0.outputs then { q0 with outputs := q0.outputs.erase node_id }
             else q0) else q0).inputs = q0.inputs := by
          by_cases h1 : p.1 ∈ n.inputs
          · by_cases h2 : node_id ∈ q0.outputs <;> simp [h1, h2]
          · simp [h1]
        have houtputs_f1 : (if p.1 ∈ n.inputs then
            (if node_id ∈ q0.outputs then { q0 with outputs := q0.outputs.erase node_id }
             else q0) else q0).outputs =
            (if p.1 ∈ n.inputs ∧ node_id ∈ q0.outputs then q0.outputs.erase node_id
             else q0.outputs) := by
          by_cases h1 : p.1 ∈ n.inputs
          · by_cases h2 : node_id ∈ q0.outputs <;> simp [h1, h2]
          · simp [h1]
        have houtputs_f2 : ∀ x : Node, (if p.1 ∈ n.outputs then
            (if node_id ∈ x.inputs then { x with inputs := x.inputs.erase node_id }
             else x) else x).outputs = x.outputs := by
          intro x
          by_cases h1 : p.1 ∈ n.outputs
          · by_cases h2 : node_id ∈ x.inputs <;> simp [h1, h2]
          · simp [h1]
        rw [← hfind]
        constructor
        · by_cases hpo : p.1 ∈ n.outputs
          · rw [if_pos hpo]
            by_cases h2 : node_id ∈ (if p.1 ∈ n.inputs then
                (if node_id ∈ q0.outputs then
                  { q0 with outputs := q0.outputs.erase node_id } else q0)
                else q0).inputs
            · rw [if_pos h2]
              rw [hinputs_f1] at h2
              show ¬ node_id ∈ (if p.1 ∈ n.inputs then
                (if node_id ∈ q0.outputs then
                  { q0 with outputs := q0.outputs.erase node_id } else q0)
                else q0).inputs.erase node_id
              rw [hinputs_f1]
              intro hmem2
              exact ((List.Nodup.mem_erase_iff hnodq0.1).1 hmem2).1 rfl
            · rw [if_neg h2]
              rw [hinputs_f1] at h2
              rw [hinputs_f1]
              exact h2
          · rw [if_neg hpo, hinputs_f1]
            intro hmem2
            exact hpo ((hsym (node_id, n) hmem_n (p.1, q0) hq0mem).2 hmem2)
        · rw [houtputs_f2, houtputs_f1]
          by_cases h1 : p.1 ∈ n.inputs
          · by_cases h2 : node_id ∈ q0.outputs
            · rw [if_pos ⟨h1, h2⟩]
              intro hmem2
              exact ((List.Nodup.mem_erase_iff hnodq0.2).1 hmem2).1 rfl
            · rw [if_neg (fun hc => h2 hc.2)]
              exact h2
          · rw [if_neg (fun hc => h1 hc.1)]
            intro hmem2
            exact h1 ((hsym (p.1, q0) hq0mem (node_id, n) hmem_n).1 hmem2)

/-- Witness for C4 on the concrete graph `a -> b`, removing `b`. -/
theorem C4_witness :
    NodupKeys exGraphAB ∧ EdgeSym exGraphAB ∧ ListsNodup exGraphAB ∧
      ((exGraphAB.hasNode "b" = false → exGraphAB.remove_node "b" = exGraphAB) ∧
        (exGraphAB.hasNode "b" = true →
          (exGraphAB.remove_node "b").hasNode "b" = false ∧
          ∀ p ∈ (exGraphAB.remove_node "b").nodes,
            ¬ "b" ∈ p.2.inputs ∧ ¬ "b" ∈ p.2.outputs)) :=
  ⟨by decide, by decide, by decide,
    C4_remove_node exGraphAB "b" (by decide) (by decide) (by decide)⟩

theorem create_id (entry : NodeData) : (create_node_from_data entry).id = entry.id := by
  unfold create_node_from_data
  by_cases h : entry.className = "CatchmentNode" <;> simp [h, mkNode]

theorem create_fresh (entry : NodeData) :
    (create_node_from_data entry).inputs = [] ∧
    (create_node_from_data entry).outputs = [] ∧
    (create_node_from_data entry).subs = [] := by
  unfold create_node_from_data
  by_cases h : entry.className = "CatchmentNode" <;> simp [h, mkNode]

theorem except_foldlM_cons {α : Type} (f : PipelineGraph → α → Except String PipelineGraph)
    (a : α) (l : List α) (g : PipelineGraph) :
    (a :: l).foldlM f g = match f g a with
      | Except.ok g2 => l.foldlM f g2
      | Except.error s => Except.error s := by
  rw [List.foldlM_cons]
  cases f g a <;> rfl

theorem except_foldlM_append {α : Type} (f : PipelineGraph → α → Except String PipelineGraph)
    (l₁ l₂ : List α) : ∀ g : PipelineGraph,
    (l₁ ++ l₂).foldlM f g = match l₁.foldlM f g with
      | Except.ok g2 => l₂.foldlM f g2
      | Except.error s => Except.error s := by
  induction l₁ with
  | nil => intro g; rfl
  | cons a l ih =>
    intro g
    rw [List.cons_append, except_foldlM_cons, except_foldlM_cons]
    cases hfa : f g a with
    | error s => rfl
    | ok g2 => exact ih g2

theorem except_foldlM_map_pair (outs : List String) (src : String) :
    ∀ g : PipelineGraph,
      (outs.map (fun t => (src, t))).foldlM
        (fun g2 pr => g2.add_edge pr.1 pr.2) g =
      outs.foldlM (fun g2 to_id => g2.add_edge src to_id) g := by
  induction outs with
  | nil => intro g; rfl
  | cons t ts ih =>
    intro g
    rw [List.map_cons, except_foldlM_cons, except_foldlM_cons]
    cases hfa : g.add_edge src t with
    | error s => rfl
    | ok g2 => exact ih g2

/-- The nested edge-replay loops of `deserialize_pipeline` equal one pass
over the flattened `(from_id, to_id)` pair list. -/
theorem deserialize_edges_eq (data : List NodeData) :
    ∀ g : PipelineGraph,
      data.foldlM (fun g entry => entry.outputs.foldlM
        (fun g2 to_id => g2.add_edge entry.id to_id) g) g =
      (data.flatMap (fun e => e.outputs.map (fun t => (e.id, t)))).foldlM
        (fun g2 pr => g2.add_edge pr.1 pr.2) g := by
  induction data with
  | nil => intro g; rfl
  | cons e es ih =>
    intro g
    rw [List.flatMap_cons, except_foldlM_append, except_foldlM_map_pair,
      except_foldlM_cons]
    cases hF : e.outputs.foldlM (fun g2 to_id => g2.add_edge e.id to_id) g with
    | error s => rfl
    | ok g2 => exact ih g2

/-- The node-reconstruction pass of `deserialize_pipeline`: with fresh ids,
folding `add_node` appends one binding per entry, in order. -/
theorem foldl_add_node_eq (data : List NodeData) :
    ∀ acc : PipelineGraph,
      (∀ e ∈ data, ¬ e.id ∈ acc.keys) →
      (data.map (fun e => e.id)).Nodup →
      (data.foldl (fun g entry => g.add_node (create_node_from_data entry)) acc).nodes =
        acc.nodes ++ data.map (fun e => (e.id, create_node_from_data e)) := by
  induction data with
  | nil =>
    intro acc _ _
    simp
  | cons e es ih =>
    intro acc hdisj hnd
    rcases List.nodup_cons.1 hnd with ⟨hnote, hndes⟩
    have hnotin : ¬ e.id ∈ acc.keys := hdisj e (List.mem_cons_self e es)
    have hany : acc.nodes.any (fun p => p.1 = (create_node_from_data e).id) = false := by
      rw [create_id]
      rw [Bool.eq_false_iff]
      intro hany
      rcases List.any_eq_true.1 hany with ⟨p, hp, hpk⟩
      simp only [decide_eq_true_eq] at hpk
      exact hnotin (hpk ▸ List.mem_map_of_mem (fun p => p.1) hp)
    have hadd : (acc.add_node (create_node_from_data e)).nodes =
        acc.nodes ++ [(e.id, create_node_from_data e)] := by
      unfold PipelineGraph.add_node dictInsert
      rw [hany]
      simp [create_id]
    have hkeys : (acc.add_node (create_node_from_data e)).keys =
        acc.keys ++ [e.id] := by
      unfold PipelineGraph.keys
      rw [hadd, List.map_append]
      rfl
    rw [List.foldl_cons, ih _ ?_ hndes, hadd, List.map_cons, List.append_assoc,
      List.singleton_append]
    intro e2 he2
    rw [hkeys]
    intro hmem
    rcases List.mem_append.1 hmem with hmem | hmem
    · exact hdisj e2 (List.mem_cons_of_mem e he2) hmem
    · have hme : e2.id ∈ es.map (fun e => e.id) :=
        List.mem_map_of_mem (fun e => e.id) he2
      rw [List.mem_singleton.1 hmem] at hme
      exact hnote hme

/-- Under duplicate-free entry ids, the flattened edge pairs carrying a
given source id are exactly that entry's `outputs`, in order. -/
theorem flat_filter_fst (data : List NodeData)
    (hnd : (data.map (fun e => e.id)).Nodup) :
    ∀ e ∈ data,
      ((data.flatMap (fun e2 => e2.outputs.map (fun t => (e2.id, t)))).filter
        (fun pr => pr.1 = e.id)).map (fun pr => pr.2) = e.outputs := by
  induction data with
  | nil =>
    intro e he
    cases he
  | cons a as ih =>
    intro e he
    rcases List.nodup_cons.1 hnd with ⟨hnota, hndas⟩
    rw [List.flatMap_cons, List.filter_append, List.map_append]
    rcases List.mem_cons.1 he with he | he
    · subst he
      have hhead : (e.outputs.map (fun t => (e.id, t))).filter
          (fun pr => pr.1 = e.id) = e.outputs.map (fun t => (e.id, t)) := by
        rw [List.filter_eq_self]
        intro pr hpr
        rcases List.mem_map.1 hpr with ⟨t, _, hpt⟩
        subst hpt
        simp
      have htail : (as.flatMap (fun e2 => e2.outputs.map (fun t => (e2.id, t)))).filter
          (fun pr => pr.1 = e.id) = [] := by
        rw [List.filter_eq_nil_iff]
        intro pr hpr
        rcases List.mem_flatMap.1 hpr with ⟨e2, he2, hpe2⟩
        rcases List.mem_map.1 hpe2 with ⟨t, _, hpt⟩
        subst hpt
        simp only [decide_eq_true_eq]
        intro heq
        have hme : e2.id ∈ as.map (fun e => e.id) :=
          List.mem_map_of_mem (fun e => e.id) he2
        rw [heq] at hme
        exact hnota hme
      rw [hhead, htail, List.map_nil, List.append_nil, List.map_map]
      have : ((fun pr : String × String => pr.2) ∘ fun t => (e.id, t)) = id := rfl
      rw [this, List.map_id]
    · have hhead : (a.outputs.map (fun t => (a.id, t))).filter
          (fun pr => pr.1 = e.id) = [] := by
        rw [List.filter_eq_nil_iff]
        intro pr hpr
        rcases List.mem_map.1 hpr with ⟨t, _, hpt⟩
        subst hpt
        simp only [decide_eq_true_eq]
        intro heq
        have hme : e.id ∈ as.map (fun e => e.id) :=
          List.mem_map_of_mem (fun e => e.id) he
        rw [← heq] at hme
        exact hnota hme
      rw [hhead, List.map_nil, List.nil_append]
      exact ih hndas e he

/-- The flattened edge-pair list repeats no pair when the entry ids and
each entry's `outputs` are duplicate-free. -/
theorem edges_nodup (data : List NodeData)
    (hids : (data.map (fun e => e.id)).Nodup)
    (houts : ∀ e ∈ data, e.outputs.Nodup) :
    (data.flatMap (fun e => e.outputs.map (fun t => (e.id, t)))).Nodup := by
  induction data with
  | nil => exact List.nodup_nil
  | cons a as ih =>
    rcases List.nodup_cons.1 hids with ⟨hnota, hndas⟩
    rw [List.flatMap_cons, List.nodup_append]
    refine ⟨?_, ih hndas (fun e he => houts e (List.mem_cons_of_mem a he)), ?_⟩
    · exact (houts a (List.mem_cons_self a as)).map
        (fun t1 t2 h => by injection h)
    · intro pr hpr1 hpr2
      rcases List.mem_map.1 hpr1 with ⟨t, _, hpt⟩
      rcases List.mem_flatMap.1 hpr2 with ⟨e2, he2, hpe2⟩
      rcases List.mem_map.1 hpe2 with ⟨t2, _, hpt2⟩
      have h1 : pr.1 = a.id := by rw [← hpt]
      have h2 : pr.1 = e2.id := by rw [← hpt2]
      have hme : e2.id ∈ as.map (fun e => e.id) :=
        List.mem_map_of_mem (fun e => e.id) he2
      rw [← h2, h1] at hme
      exact hnota hme

theorem filter_map_append_fst (P : List (String × String)) (pr : String × String)
    (k : String) :
    ((P ++ [pr]).filter (fun q => q.1 = k)).map (fun q => q.2) =
      (P.filter (fun q => q.1 = k)).map (fun q => q.2) ++
        (if pr.1 = k then [pr.2] else []) := by
  rw [List.filter_append, List.map_append]
  congr 1
  by_cases h : pr.1 = k <;> simp [h]

theorem filter_map_append_snd (P : List (String × String)) (pr : String × String)
    (k : String) :
    ((P ++ [pr]).filter (fun q => q.2 = k)).map (fun q => q.1) =
      (P.filter (fun q => q.2 = k)).map (fun q => q.1) ++
        (if pr.2 = k then [pr.1] else []) := by
  rw [List.filter_append, List.map_append]
  congr 1
  by_cases h : pr.2 = k <;> simp [h]

theorem not_mem_replay_out {P : List (String × String)} {pr : String × String}
    (hprP : ¬ pr ∈ P) :
    ¬ pr.2 ∈ (P.filter (fun q => q.1 = pr.1)).map (fun q => q.2) := by
  intro h
  rcases List.mem_map.1 h with ⟨q, hq, hq2⟩
  rcases List.mem_filter.1 hq with ⟨hqP, hq1⟩
  have hqe : q = pr := Prod.ext_iff.2 ⟨of_decide_eq_true hq1, hq2⟩
  rw [hqe] at hqP
  exact hprP hqP

theorem not_mem_replay_in {P : List (String × String)} {pr : String × String}
    (hprP : ¬ pr ∈ P) :
    ¬ pr.1 ∈ (P.filter (fun q => q.2 = pr.2)).map (fun q => q.1) := by
  intro h
  rcases List.mem_map.1 h with ⟨q, hq, hq1⟩
  rcases List.mem_filter.1 hq with ⟨hqP, hq2⟩
  have hqe : q = pr := Prod.ext_iff.2 ⟨hq1, of_decide_eq_true hq2⟩
  rw [hqe] at hqP
  exact hprP hqP

/-- One replayed edge advances the reconstruction invariant: with both ids
present among the recreated nodes and the pair not yet processed,
`add_edge` succeeds and every binding is the `replayNode` state for the
extended processed list. -/
theorem add_edge_replay_step (g0 : PipelineGraph) (P : List (String × String))
    (pr : String × String) (G : PipelineGraph) {nf0 nt0 : Node}
    (hf0 : g0.find? pr.1 = some nf0) (ht0 : g0.find? pr.2 = some nt0)
    (hfid : nf0.id = pr.1) (hprP : ¬ pr ∈ P)
    (hInv : ∀ k, G.find? k = (g0.find? k).map (replayNode P k)) :
    ∃ G2, G.add_edge pr.1 pr.2 = Except.ok G2 ∧ G2.keys = G.keys ∧
      ∀ k, G2.find? k = (g0.find? k).map (replayNode (P ++ [pr]) k) := by
  have hfromG : G.find? pr.1 = some (replayNode P pr.1 nf0) := by
    rw [hInv pr.1, hf0]
    rfl
  have htoG : G.find? pr.2 = some (replayNode P pr.2 nt0) := by
    rw [hInv pr.2, ht0]
    rfl
  have hedge : G.add_edge pr.1 pr.2 = Except.ok
      (((G.updateNode pr.1 (fun fn =>
          if pr.2 ∈ fn.outputs then fn
          else { fn with outputs := fn.outputs ++ [pr.2] })).updateNode pr.2 (fun tn =>
          if pr.1 ∈ tn.inputs then tn
          else { tn with inputs := tn.inputs ++ [pr.1] })).updateNode pr.2 (fun tn =>
          (tn.subscribe_to_input (replayNode P pr.1 nf0)).2)) := by
    unfold PipelineGraph.add_edge
    rw [hfromG, htoG]
  refine ⟨_, hedge, ?_, ?_⟩
  · rw [keys_updateNode, keys_updateNode, keys_updateNode]
  · intro k
    rw [find?_updateNode, find?_updateNode, find?_updateNode, hInv k]
    cases hg0 : g0.find? k with
    | none =>
      by_cases h2 : k = pr.2 <;> by_cases h1 : k = pr.1 <;> simp [h2, h1]
    | some nd =>
      simp only [Option.map_some']
      by_cases h2 : k = pr.2
      · by_cases h1 : k = pr.1
        · have hnde : nd = nf0 := by
            have h3 := hf0
            rw [← h1, hg0] at h3
            exact Option.some_inj.1 h3
          subst hnde
          rw [if_pos h2, if_pos h2, if_pos h1]
          simp only [Option.map_some']
          have houtf : ¬ pr.2 ∈ (P.filter (fun q => q.1 = k)).map (fun q => q.2) := by
            have h0 := not_mem_replay_out hprP
            rw [← h1] at h0
            exact h0
          have hsubs : ¬ pr.1 ∈ (P.filter (fun q => q.2 = k)).map (fun q => q.1) := by
            have h0 := not_mem_replay_in hprP
            rw [← h2] at h0
            exact h0
          have e1 : (pr.1 = k) = True := eq_true h1.symm
          have e2 : (pr.2 = k) = True := eq_true h2.symm
          unfold Node.subscribe_to_input replayNode
          by_cases hcat : nd.node_type = "catchment" <;>
            simp [hcat, hfid, houtf, hsubs, filter_map_append_fst,
              filter_map_append_snd, e1, e2]
        · have hnde : nd = nt0 := by
            have h3 := ht0
            rw [← h2, hg0] at h3
            exact Option.some_inj.1 h3
          subst hnde
          rw [if_pos h2, if_pos h2, if_neg h1]
          simp only [Option.map_some']
          have hsubs : ¬ pr.1 ∈ (P.filter (fun q => q.2 = k)).map (fun q => q.1) := by
            have h0 := not_mem_replay_in hprP
            rw [← h2] at h0
            exact h0
          have e1 : (pr.1 = k) = False := eq_false (fun hh => h1 hh.symm)
          have e2 : (pr.2 = k) = True := eq_true h2.symm
          unfold Node.subscribe_to_input replayNode
          by_cases hcat : nd.node_type = "catchment"
          · simp [hcat, hfid, hsubs, filter_map_append_fst,
              filter_map_append_snd, e1, e2]
          · simp [hcat, hfid, hsubs, filter_map_append_fst,
              filter_map_append_snd, e1, e2]
      · by_cases h1 : k = pr.1
        · have hnde : nd = nf0 := by
            have h3 := hf0
            rw [← h1, hg0] at h3
            exact Option.some_inj.1 h3
          subst hnde
          rw [if_neg h2, if_neg h2, if_pos h1]
          have houtf : ¬ pr.2 ∈ (P.filter (fun q => q.1 = k)).map (fun q => q.2) := by
            have h0 := not_mem_replay_out hprP
            rw [← h1] at h0
            exact h0
          have e1 : (pr.1 = k) = True := eq_true h1.symm
          have e2 : (pr.2 = k) = False := eq_false (fun hh => h2 hh.symm)
          unfold replayNode
          simp [houtf, filter_map_append_fst, filter_map_append_snd, e1, e2]
        · rw [if_neg h2, if_neg h2, if_neg h1]
          have e1 : (pr.1 = k) = False := eq_false (fun hh => h1 hh.symm)
          have e2 : (pr.2 = k) = False := eq_false (fun hh => h2 hh.symm)
          unfold replayNode
          simp [filter_map_append_fst, filter_map_append_snd, e1, e2]

/-- Replaying a duplicate-free list of edge pairs between recreated nodes
succeeds and leaves every binding in the fully replayed state. -/
theorem replay_foldlM (g0 : PipelineGraph) (all : List (String × String))
    (hall : all.Nodup)
    (hkeys : ∀ pr ∈ all, pr.1 ∈ g0.keys ∧ pr.2 ∈ g0.keys)
    (hids : ∀ k nd, g0.find? k = some nd → nd.id = k) :
    ∀ (suffix P : List (String × String)) (G : PipelineGraph),
      all = P ++ suffix →
      (∀ k, G.find? k = (g0.find? k).map (replayNode P k)) →
      ∃ Gf, suffix.foldlM (fun g2 pr => g2.add_edge pr.1 pr.2) G = Except.ok Gf ∧
        Gf.keys = G.keys ∧
        ∀ k, Gf.find? k = (g0.find? k).map (replayNode all k) := by
  intro suffix
  induction suffix with
  | nil =>
    intro P G hsplit hInv
    refine ⟨G, rfl, rfl, ?_⟩
    rw [List.append_nil] at hsplit
    intro k
    rw [hsplit]
    exact hInv k
  | cons pr rest ih =>
    intro P G hsplit hInv
    have hpr_all : pr ∈ all := by
      rw [hsplit]
      exact List.mem_append_right P (List.mem_cons_self pr rest)
    have hprP : ¬ pr ∈ P := by
      intro hmem
      rw [hsplit] at hall
      rcases List.nodup_append.1 hall with ⟨_, _, hdisj⟩
      exact hdisj hmem (List.mem_cons_self pr rest)
    obtain ⟨nf0, hf0⟩ :=
      Option.isSome_iff_exists.1 ((find?_isSome_iff g0 pr.1).2 (hkeys pr hpr_all).1)
    obtain ⟨nt0, ht0⟩ :=
      Option.isSome_iff_exists.1 ((find?_isSome_iff g0 pr.2).2 (hkeys pr hpr_all).2)
    have hfid : nf0.id = pr.1 := hids pr.1 nf0 hf0
    obtain ⟨G2, hG2, hkeys2, hInv2⟩ :=
      add_edge_replay_step g0 P pr G hf0 ht0 hfid hprP hInv
    have hsplit2 : all = (P ++ [pr]) ++ rest := by
      rw [hsplit, List.append_assoc, List.singleton_append]
    obtain ⟨Gf, hGf, hkeysf, hInvf⟩ := ih (P ++ [pr]) G2 hsplit2 hInv2
    refine ⟨Gf, ?_, ?_, hInvf⟩
    · rw [except_foldlM_cons, hG2]
      exact hGf
    · rw [hkeysf, hkeys2]

theorem replayNode_outputs (P : List (String × String)) (k : String) (nd : Node) :
    (replayNode P k nd).outputs =
      (P.filter (fun pr => pr.1 = k)).map (fun pr => pr.2) := rfl

theorem replayNode_inputs (P : List (String × String)) (k : String) (nd : Node) :
    (replayNode P k nd).inputs =
      (P.filter (fun pr => pr.2 = k)).map (fun pr => pr.1) := rfl

theorem replayNode_subs (P : List (String × String)) (k : String) (nd : Node) :
    (replayNode P k nd).subs =
      if nd.node_type = "catchment" then nd.subs
      else (P.filter (fun pr => pr.2 = k)).map (fun pr => pr.1) := rfl

theorem replayNode_node_type (P : List (String × String)) (k : String) (nd : Node) :
    (replayNode P k nd).node_type = nd.node_type := rfl

theorem replayNode_nil (k : String) (nd : Node)
    (hi : nd.inputs = []) (ho : nd.outputs = []) (hs : nd.subs = []) :
    replayNode [] k nd = nd := by
  unfold replayNode
  cases nd
  simp_all

/-- Claim C5, counterexample to the original statement: on the reachable
graph with operator nodes a, b, c and edges added in the order b -> c then
a -> c, the original node c has inputs ["b", "a"], but after the
serialization round trip its copy has inputs ["a", "b"] — deserialization
replays edges in outputs-major serialization order, so a per-node inputs
list is reproduced only up to permutation, not as the same list. -/
theorem C5_counterexample :
    ∃ g2 nOld n2,
      deserialize_pipeline (serialize_pipeline exGraphBCAC) = Except.ok g2 ∧
      exGraphBCAC.find? "c" = some nOld ∧
      g2.find? "c" = some n2 ∧
      nOld.inputs = ["b", "a"] ∧ n2.inputs = ["a", "b"] ∧
      ¬ n2.inputs = nOld.inputs := by
  refine ⟨_, _, _, rfl, rfl, rfl, ?_, ?_, ?_⟩ <;> decide

/-- Claim C5: serializing a well-formed graph and deserializing the result
reproduces an isomorphic edge set — the same node ids, the same `outputs`
list per node, and per node an `inputs` list that is a permutation of the
original (the replay visits entries in dict order, so only the order
within an `inputs` list can differ; the edge set is identical) — and the
edges are replayed through `add_edge`, so live subscriptions are
re-created for every non-catchment node rather than only the structural
lists. -/
theorem C5_roundtrip (g : PipelineGraph)
    (hk : NodupKeys g) (hid : IdsMatch g) (hsym : EdgeSym g)
    (hnd : ListsNodup g) (hc : ClosedGraph g) :
    ∃ g2, deserialize_pipeline (serialize_pipeline g) = Except.ok g2 ∧
      g2.keys = g.keys ∧
      ∀ p ∈ g.nodes, ∃ n2, g2.find? p.1 = some n2 ∧
        n2.outputs = p.2.outputs ∧
        n2.inputs.Perm p.2.inputs ∧
        (¬ n2.node_type = "catchment" → n2.subs = n2.inputs) ∧
        (n2.node_type = "catchment" → n2.subs = []) := by
  have hids_eq : (serialize_pipeline g).map (fun e => e.id) = g.keys := by
    unfold serialize_pipeline PipelineGraph.keys
    rw [List.map_map]
    apply List.map_congr_left
    intro p hp
    exact hid p hp
  have hids_nodup : ((serialize_pipeline g).map (fun e => e.id)).Nodup := by
    rw [hids_eq]
    exact hk
  have hg0nodes : (recreatedGraph (serialize_pipeline g)).nodes =
      (serialize_pipeline g).map (fun e => (e.id, create_node_from_data e)) := by
    unfold recreatedGraph
    rw [foldl_add_node_eq (serialize_pipeline g) { nodes := [] }
      (fun e _ hmem => by cases hmem) hids_nodup]
    rfl
  have hg0keys : (recreatedGraph (serialize_pipeline g)).keys = g.keys := by
    rw [← hids_eq]
    unfold PipelineGraph.keys
    rw [hg0nodes, List.map_map]
    rfl
  have hg0keysnodup : ((recreatedGraph (serialize_pipeline g)).nodes.map
      (fun q => q.1)).Nodup := by
    have h1 := hg0keys
    unfold PipelineGraph.keys at h1
    rw [h1]
    exact hk
  have hg0find : ∀ e ∈ serialize_pipeline g,
      (recreatedGraph (serialize_pipeline g)).find? e.id =
        some (create_node_from_data e) := by
    intro e he
    exact dictFind?_of_mem hg0keysnodup (by
      rw [hg0nodes]
      exact List.mem_map_of_mem (fun e => (e.id, create_node_from_data e)) he)
  have hg0ids : ∀ k nd, (recreatedGraph (serialize_pipeline g)).find? k = some nd →
      nd.id = k := by
    intro k nd hfk
    have hmem := mem_of_find?_eq_some hfk
    rw [hg0nodes] at hmem
    rcases List.mem_map.1 hmem with ⟨e, _, hpe⟩
    have h1 : e.id = k := congrArg Prod.fst hpe
    have h2 : create_node_from_data e = nd := congrArg Prod.snd hpe
    rw [← h2, create_id, h1]
  have houts_nodup : ∀ e ∈ serialize_pipeline g, e.outputs.Nodup := by
    intro e he
    unfold serialize_pipeline at he
    rcases List.mem_map.1 he with ⟨p, hp, hpe⟩
    rw [← hpe]
    exact (hnd p hp).2
  have hedges_nodup : (edgePairs (serialize_pipeline g)).Nodup := by
    unfold edgePairs
    exact edges_nodup _ hids_nodup houts_nodup
  have hedges_keys : ∀ pr ∈ edgePairs (serialize_pipeline g),
      pr.1 ∈ (recreatedGraph (serialize_pipeline g)).keys ∧
      pr.2 ∈ (recreatedGraph (serialize_pipeline g)).keys := by
    intro pr hpr
    unfold edgePairs at hpr
    rcases List.mem_flatMap.1 hpr with ⟨e, he, hpre⟩
    rcases List.mem_map.1 hpre with ⟨t, ht, hprt⟩
    rw [hg0keys]
    have h1 : e.id = pr.1 := congrArg Prod.fst hprt
    have h2 : t = pr.2 := congrArg Prod.snd hprt
    constructor
    · rw [← h1, ← hids_eq]
      exact List.mem_map_of_mem (fun e => e.id) he
    · unfold serialize_pipeline at he
      rcases List.mem_map.1 he with ⟨p, hp, hpe⟩
      have houts : p.2.outputs = e.outputs := by rw [← hpe]; rfl
      rw [← houts] at ht
      have hhas := (hc p hp).2 t ht
      rw [← h2]
      exact (hasNode_iff_mem_keys g t).1 hhas
  have hInv0 : ∀ k, (recreatedGraph (serialize_pipeline g)).find? k =
      ((recreatedGraph (serialize_pipeline g)).find? k).map (replayNode [] k) := by
    intro k
    cases hfk : (recreatedGraph (serialize_pipeline g)).find? k with
    | none => rfl
    | some nd =>
      have hmem := mem_of_find?_eq_some hfk
      rw [hg0nodes] at hmem
      rcases List.mem_map.1 hmem with ⟨e, _, hpe⟩
      have h2 : create_node_from_data e = nd := congrArg Prod.snd hpe
      rw [Option.map_some', ← h2]
      rcases create_fresh e with ⟨hi, ho, hs⟩
      rw [replayNode_nil k _ hi ho hs]
  obtain ⟨Gf, hGf, hGfkeys, hInvF⟩ :=
    replay_foldlM (recreatedGraph (serialize_pipeline g))
      (edgePairs (serialize_pipeline g)) hedges_nodup hedges_keys hg0ids
      (edgePairs (serialize_pipeline g)) [] _ (List.nil_append _).symm hInv0
  refine ⟨Gf, ?_, ?_, ?_⟩
  · unfold deserialize_pipeline
    rw [deserialize_edges_eq]
    exact hGf
  · rw [hGfkeys, hg0keys]
  · intro p hp
    have he : serEntry p ∈ serialize_pipeline g := List.mem_map_of_mem serEntry hp
    have hpid : (serEntry p).id = p.1 := hid p hp
    have hfind := hInvF p.1
    have hg0p : (recreatedGraph (serialize_pipeline g)).find? p.1 =
        some (create_node_from_data (serEntry p)) := by
      have h3 := hg0find _ he
      rw [hpid] at h3
      exact h3
    rw [hg0p, Option.map_some'] at hfind
    refine ⟨_, hfind, ?_, ?_, ?_, ?_⟩
    · rw [replayNode_outputs, ← hpid]
      unfold edgePairs
      exact flat_filter_fst (serialize_pipeline g) hids_nodup _ he
    · rw [replayNode_inputs]
      have hmemiff : ∀ x, x ∈ ((edgePairs (serialize_pipeline g)).filter
          (fun pr => pr.2 = p.1)).map (fun pr => pr.1) ↔ x ∈ p.2.inputs := by
        intro x
        constructor
        · intro hx
          rcases List.mem_map.1 hx with ⟨q, hq, hq1⟩
          rcases List.mem_filter.1 hq with ⟨hqE, hq2d⟩
          have hq2 : q.2 = p.1 := of_decide_eq_true hq2d
          unfold edgePairs at hqE
          rcases List.mem_flatMap.1 hqE with ⟨e2, he2, hqe2⟩
          rcases List.mem_map.1 hqe2 with ⟨t, ht, hqt⟩
          have hq1e : e2.id = q.1 := congrArg Prod.fst hqt
          have hq2e : t = q.2 := congrArg Prod.snd hqt
          unfold serialize_pipeline at he2
          rcases List.mem_map.1 he2 with ⟨p2, hp2, hpe2⟩
          have he2id : e2.id = p2.2.id := by rw [← hpe2]; rfl
          have hp2id : p2.2.id = p2.1 := hid p2 hp2
          have houtse : e2.outputs = p2.2.outputs := by rw [← hpe2]; rfl
          rw [hq2e, hq2] at ht
          rw [houtse] at ht
          have hx2 : x = p2.1 := by rw [← hq1, ← hq1e, he2id, hp2id]
          rw [hx2]
          exact (hsym p2 hp2 p hp).1 ht
        · intro hx
          have hhas := (hc p hp).1 x hx
          obtain ⟨nx, hnx⟩ := Option.isSome_iff_exists.1
            (by simpa [PipelineGraph.hasNode] using hhas)
          have hmemx : (x, nx) ∈ g.nodes := mem_of_find?_eq_some hnx
          have hout : p.1 ∈ nx.outputs := (hsym (x, nx) hmemx p hp).2 hx
          have hq : ((x, p.1) : String × String) ∈ edgePairs (serialize_pipeline g) := by
            unfold edgePairs
            refine List.mem_flatMap.2 ⟨serEntry (x, nx), ?_, ?_⟩
            · exact List.mem_map_of_mem serEntry hmemx
            · refine List.mem_map.2 ⟨p.1, ?_, ?_⟩
              · exact hout
              · have h5 : (serEntry (x, nx)).id = x := hid (x, nx) hmemx
                rw [h5]
          refine List.mem_map.2 ⟨(x, p.1), ?_, rfl⟩
          refine List.mem_filter.2 ⟨hq, ?_⟩
          simp
      have hnodL : (((edgePairs (serialize_pipeline g)).filter
          (fun pr => pr.2 = p.1)).map (fun pr => pr.1)).Nodup := by
        apply List.Nodup.map_on
        · intro a ha b hb hab
          have ha2 : a.2 = p.1 := of_decide_eq_true (List.mem_filter.1 ha).2
          have hb2 : b.2 = p.1 := of_decide_eq_true (List.mem_filter.1 hb).2
          exact Prod.ext_iff.2 ⟨hab, ha2.trans hb2.symm⟩
        · exact (List.filter_sublist _).nodup hedges_nodup
      exact (List.perm_ext_iff_of_nodup hnodL (hnd p hp).1).2 hmemiff
    · intro hcat
      rw [replayNode_node_type] at hcat
      rw [replayNode_subs, replayNode_inputs, if_neg hcat]
    · intro hcat
      rw [replayNode_node_type] at hcat
      rw [replayNode_subs, if_pos hcat]
      exact (create_fresh (serEntry p)).2.2

/-- Witness for C5 on the concrete reachable graph `a -> b`: the
well-formedness hypotheses hold and the round trip reproduces the edge
set. -/
theorem C5_witness :
    (NodupKeys exGraphAB ∧ IdsMatch exGraphAB ∧ EdgeSym exGraphAB ∧
      ListsNodup exGraphAB ∧ ClosedGraph exGraphAB) ∧
    ∃ g2, deserialize_pipeline (serialize_pipeline exGraphAB) = Except.ok g2 ∧
      g2.keys = exGraphAB.keys ∧
      ∀ p ∈ exGraphAB.nodes, ∃ n2, g2.find? p.1 = some n2 ∧
        n2.outputs = p.2.outputs ∧
        n2.inputs.Perm p.2.inputs ∧
        (¬ n2.node_type = "catchment" → n2.subs = n2.inputs) ∧
        (n2.node_type = "catchment" → n2.subs = []) :=
  ⟨⟨by decide, by decide, by decide, by decide, by decide⟩,
    C5_roundtrip exGraphAB (by decide) (by decide) (by decide) (by decide)
      (by decide)⟩

/-- Witness for C8 on the concrete acyclic graph `a -> b`. -/
theorem C8_witness :
    NodupKeys exGraphAB ∧ ClosedGraph exGraphAB ∧
      ∃ l, exGraphAB.topological_order = some l ∧ l.Nodup ∧
        (∀ x, x ∈ l ↔ exGraphAB.hasNode x = true) ∧
        (∀ p ∈ exGraphAB.nodes, ∀ d ∈ p.2.inputs, idx l d < idx l p.1) :=
  ⟨by decide, by decide,
    (C8_topological_order exGraphAB (by decide) (by decide)).1
      (no_cycle_of_staticOrder_some
        (show staticOrder exGraphAB.depMap = some ["a", "b"] from rfl))⟩

end H2P
